import Mathlib

/-!
Shallow embedding of the `jffs2-rs` JFFS2 image reader (`src/lib.rs`) and
verification of its specification claims.

Bytes are modelled as `Nat` (values below 256 in any real image), byte
buffers as `List Nat`, Rust `u16`/`u32` values as `Nat` with explicit
`% 2^32` at the one place the source relies on wrapping arithmetic
(`maxmm - 12` in `Jffs2Reader::scan`).  Fallible Rust code (`Result`,
slice-indexing panics, FFI decoders) is modelled with `Except JErr`.
`HashMap` tables are modelled as association lists with deterministic
replace-or-append insertion; the claims under verification do not depend
on iteration order.
-/

/-- Error codes: one constructor per distinct `bail!` / panic site in the
source that the embedding can reach. -/
inductive JErr : Type
  /-- `read_uint16` / `read_uint32` bounds failure (`offset out of bounds`). -/
  | oobRead
  /-- `read_str` offset check (`offset out of bounds` in `read_str`). -/
  | strOob
  /-- `read_str` UTF-8 validation failure (`String::from_utf8` error). -/
  | badUtf8
  /-- `scan_dirent`: `out of bounds when reading filename`. -/
  | nameOob
  /-- `scan_inode`: `out of bounds when reading data`. -/
  | dataOob
  /-- Rust slice-indexing panic (`buffer[a..b]` with `a > b` or `b > len`). -/
  | slicePanic
  /-- `Jffs2Reader::new`: `image size is too small`. -/
  | tooSmall
  /-- `Jffs2Reader::new`: `image is not jffs2`. -/
  | notJffs2
  /-- `resolve_dirent`: `no dirent for node`. -/
  | noDirent
  /-- `resolve_dirent`: `cannot find parent node`. -/
  | noParent
  /-- `resolve_dirent`: `cannot resolve dirent` (32-hop bound exceeded). -/
  | cycle
  /-- `rtime_decompress` input indexing panic (`compressed_buffer[pos..pos+1]`). -/
  | rtimeInputOob
  /-- `rtime_decompress` back-reference indexing panic (`dst[backoffs]`). -/
  | rtimeBackOob
  /-- `dump_file`: `JFFS2_COMPR_RUBINMIPS is deprecated!!`. -/
  | rubinmips
  /-- `dump_file`: `JFFS2_COMPR_COPY is never implemented!`. -/
  | coprNever
  /-- `dump_file`: `unknown compression type`. -/
  | unknownCompr
  /-- External decoder (zlib / lzma) failure. -/
  | codecFailure

deriving DecidableEq, Repr

deriving instance DecidableEq for Except

/-- Association-list lookup: first binding wins (models `HashMap::get`). -/
def lookupT {α : Type} : List (Nat × α) → Nat → Option α
  | [], _ => none
  | (k', v) :: rest, k => if k = k' then some v else lookupT rest k

/-- Association-list insert with replace-or-append semantics
(models `HashMap::insert`). -/
def insertT {α : Type} : List (Nat × α) → Nat → α → List (Nat × α)
  | [], k, v => [(k, v)]
  | (k', v') :: rest, k, v =>
      if k = k' then (k, v) :: rest else (k', v') :: insertT rest k v

/-- Byte at index `i`, defaulting to `0` (used only after bounds checks,
mirroring checked Rust indexing). -/
def byteAt (buffer : List Nat) (i : Nat) : Nat := buffer.getD i 0

/-- Little-endian 32-bit value from four bytes at `off`. -/
def le32At (buffer : List Nat) (off : Nat) : Nat :=
  byteAt buffer off + 256 * byteAt buffer (off + 1) +
    65536 * byteAt buffer (off + 2) + 16777216 * byteAt buffer (off + 3)

/-- Little-endian 16-bit value from two bytes at `off`. -/
def le16At (buffer : List Nat) (off : Nat) : Nat :=
  byteAt buffer off + 256 * byteAt buffer (off + 1)

/-- Embedding of `Jffs2Reader::read_uint16`: bounds-checked 16-bit read honouring the
endianness flag. -/
def read_uint16 (buffer : List Nat) (little_endian : Bool) (off : Nat) :
    Except JErr Nat :=
  if off + 2 > buffer.length then .error .oobRead
  else if little_endian then .ok (le16At buffer off)
  else .ok (byteAt buffer (off + 1) + 256 * byteAt buffer off)

/-- Embedding of `Jffs2Reader::read_uint32`: bounds-checked 32-bit read honouring the
endianness flag. -/
def read_uint32 (buffer : List Nat) (little_endian : Bool) (off : Nat) :
    Except JErr Nat :=
  if off + 4 > buffer.length then .error .oobRead
  else if little_endian then .ok (le32At buffer off)
  else .ok (byteAt buffer (off + 3) + 256 * byteAt buffer (off + 2) +
      65536 * byteAt buffer (off + 1) + 16777216 * byteAt buffer off)

/-- Rust slice `buffer[a..b]`: panics (error) unless `a ≤ b ≤ len`. -/
def sliceE (buffer : List Nat) (a b : Nat) : Except JErr (List Nat) :=
  if a ≤ b ∧ b ≤ buffer.length then .ok ((buffer.drop a).take (b - a))
  else .error .slicePanic

/-! ### RTIME decompression (`Jffs2Reader::rtime_decompress`) -/

/-- The inner byte-by-byte copy loop of `rtime_decompress`:
`while repeat != 0 { dst.push(dst[backoffs]); backoffs += 1; repeat -= 1 }`,
with the indexing panic modelled as an error. -/
def selfCopy (dst : List Nat) (back : Nat) : Nat → Except JErr (List Nat)
  | 0 => .ok dst
  | r + 1 =>
      match dst[back]? with
      | none => .error .rtimeBackOob
      | some b => selfCopy (dst ++ [b]) (back + 1) r

/-- One step state of the RTIME loop is carried in the arguments:
output `dst`, input cursor `pos`, and the 256-entry `position` table
(modelled as a function from byte value to recorded offset; the Rust code
uses a `Vec` of length 256 indexed by the byte value). -/
def rtimeLoop (input : List Nat) (dstlen : Nat) :
    Nat → List Nat → Nat → (Nat → Nat) → Except JErr (List Nat)
  | 0, dst, _, _ => .ok dst
  | fuel + 1, dst, pos, position =>
      if dst.length ≥ dstlen then .ok dst
      else
        match input[pos]? with
        | none => .error .rtimeInputOob
        | some val =>
            let dst1 := dst ++ [val]
            match input[pos + 1]? with
            | none => .error .rtimeInputOob
            | some r =>
                let back := position val
                let position1 : Nat → Nat :=
                  fun b => if b = val then dst1.length else position b
                if r ≠ 0 then
                  if back + r ≥ dst1.length then
                    match selfCopy dst1 back r with
                    | .error e => .error e
                    | .ok dst2 => rtimeLoop input dstlen fuel dst2 (pos + 2) position1
                  else
                    rtimeLoop input dstlen fuel
                      (dst1 ++ (dst1.drop back).take r) (pos + 2) position1
                else rtimeLoop input dstlen fuel dst1 (pos + 2) position1

/-- Embedding of `Jffs2Reader::rtime_decompress`.  The Rust `while` loop appends at least
one byte per iteration, so `dstlen + 1` fuel always exceeds the number of
iterations; the fuel-exhausted branch is unreachable. -/
def rtime_decompress (input : List Nat) (dstlen : Nat) : Except JErr (List Nat) :=
  rtimeLoop input dstlen (dstlen + 1) [] 0 (fun _ => 0)

/-- The RTIME algorithm exactly as the specification words it (§4.7): block
copy when the source region `[back, back+r)` lies fully inside the current
`dst`, byte-by-byte copy otherwise.  (The code block-copies only when
`back + r < |dst|`, copying byte-by-byte at `back + r = |dst|` as well.) -/
def rtimeSpecLoop (input : List Nat) (dstlen : Nat) :
    Nat → List Nat → Nat → (Nat → Nat) → Except JErr (List Nat)
  | 0, dst, _, _ => .ok dst
  | fuel + 1, dst, pos, position =>
      if dst.length ≥ dstlen then .ok dst
      else
        match input[pos]? with
        | none => .error .rtimeInputOob
        | some val =>
            let dst1 := dst ++ [val]
            match input[pos + 1]? with
            | none => .error .rtimeInputOob
            | some r =>
                let back := position val
                let position1 : Nat → Nat :=
                  fun b => if b = val then dst1.length else position b
                if r ≠ 0 then
                  if back + r ≤ dst1.length then
                    rtimeSpecLoop input dstlen fuel
                      (dst1 ++ (dst1.drop back).take r) (pos + 2) position1
                  else
                    match selfCopy dst1 back r with
                    | .error e => .error e
                    | .ok dst2 => rtimeSpecLoop input dstlen fuel dst2 (pos + 2) position1
                else rtimeSpecLoop input dstlen fuel dst1 (pos + 2) position1

/-- Reference RTIME decoder written from the specification's words. -/
def rtimeSpec (input : List Nat) (dstlen : Nat) : Except JErr (List Nat) :=
  rtimeSpecLoop input dstlen (dstlen + 1) [] 0 (fun _ => 0)

/-- Invariant of the RTIME loop: every entry of the position table is at
most the current output length. -/
def rtInv (position : Nat → Nat) (dst : List Nat) : Prop :=
  ∀ b, position b ≤ dst.length

/-! ### Node records and payload parsers (`scan_dirent`, `scan_inode`) -/

/-- Embedding of `Jffs2Dirent` (semantic fields retained by the code).  The name is kept
as its UTF-8 byte list. -/
structure Jffs2Dirent : Type where
  pino : Nat
  version : Nat
  mctime : Nat
  ntype : Nat
  fname : List Nat

deriving DecidableEq, Repr

/-- Embedding of `Jffs2Inode` (the field name `iszie` is the source's own spelling). -/
structure Jffs2Inode : Type where
  version : Nat
  iszie : Nat
  mtime : Nat
  offset : Nat
  csize : Nat
  dsize : Nat
  compr : Nat
  data : Nat

deriving DecidableEq, Repr

/-- Strict UTF-8 validity (RFC 3629, as enforced by `String::from_utf8`):
no overlong encodings, no surrogates, no code points above `U+10FFFF`. -/
def utf8Cont (c : Nat) : Bool := 0x80 ≤ c && c ≤ 0xBF

def utf8Valid : List Nat → Bool
  | [] => true
  | b :: rest =>
      if b < 0x80 then utf8Valid rest
      else if 0xC2 ≤ b ∧ b ≤ 0xDF then
        match rest with
        | c1 :: rest1 => utf8Cont c1 && utf8Valid rest1
        | [] => false
      else if b = 0xE0 then
        match rest with
        | c1 :: c2 :: rest2 =>
            (0xA0 ≤ c1 && c1 ≤ 0xBF) && utf8Cont c2 && utf8Valid rest2
        | _ => false
      else if (0xE1 ≤ b ∧ b ≤ 0xEC) ∨ b = 0xEE ∨ b = 0xEF then
        match rest with
        | c1 :: c2 :: rest2 => utf8Cont c1 && utf8Cont c2 && utf8Valid rest2
        | _ => false
      else if b = 0xED then
        match rest with
        | c1 :: c2 :: rest2 =>
            (0x80 ≤ c1 && c1 ≤ 0x9F) && utf8Cont c2 && utf8Valid rest2
        | _ => false
      else if b = 0xF0 then
        match rest with
        | c1 :: c2 :: c3 :: rest3 =>
            (0x90 ≤ c1 && c1 ≤ 0xBF) && utf8Cont c2 && utf8Cont c3 &&
              utf8Valid rest3
        | _ => false
      else if 0xF1 ≤ b ∧ b ≤ 0xF3 then
        match rest with
        | c1 :: c2 :: c3 :: rest3 =>
            utf8Cont c1 && utf8Cont c2 && utf8Cont c3 && utf8Valid rest3
        | _ => false
      else if b = 0xF4 then
        match rest with
        | c1 :: c2 :: c3 :: rest3 =>
            (0x80 ≤ c1 && c1 ≤ 0x8F) && utf8Cont c2 && utf8Cont c3 &&
              utf8Valid rest3
        | _ => false
      else false

/-- Embedding of `Jffs2Reader::read_str`: at most `length` bytes starting at `offset`,
truncated at the first NUL, validated as UTF-8 (the resulting `String` is
modelled by its byte list). -/
def read_str (buffer : List Nat) (off length : Nat) : Except JErr (List Nat) :=
  if off ≥ buffer.length then .error .strOob
  else
    let str_bytes := ((buffer.drop off).take length).takeWhile (fun b => b ≠ 0)
    if utf8Valid str_bytes then .ok str_bytes else .error .badUtf8

/-- Embedding of `Jffs2Reader::scan_dirent`.  The payload `mm` starts at the dirent
struct (28 fixed bytes, then the name); all struct fields are read with
`unpack_from_le`, i.e. ALWAYS little-endian, regardless of the image
endianness flag. -/
def scan_dirent (dirents : List (Nat × Jffs2Dirent)) (mm : List Nat) :
    Except JErr (Bool × List (Nat × Jffs2Dirent)) :=
  if mm.length < 28 then .ok (false, dirents)
  else
    let pino := le32At mm 0
    let version := le32At mm 4
    let ino := le32At mm 8
    let mctime := le32At mm 12
    let nsize := byteAt mm 16
    let ntype := byteAt mm 17
    if nsize + 28 > mm.length then .error .nameOob
    else
      let insertNew : Except JErr (Bool × List (Nat × Jffs2Dirent)) :=
        match read_str mm 28 nsize with
        | .error e => .error e
        | .ok fname =>
            .ok (true, insertT dirents ino ⟨pino, version, mctime, ntype, fname⟩)
      match lookupT dirents ino with
      | some old_dirent =>
          if old_dirent.version > version then .ok (true, dirents) else insertNew
      | none => insertNew

/-- The dirent-table version-reconciliation rule applied by `scan_dirent`
to one parsed record (lines 310–327 of the source). -/
def direntUpd (t : List (Nat × Jffs2Dirent)) (r : Nat × Jffs2Dirent) :
    List (Nat × Jffs2Dirent) :=
  match lookupT t r.1 with
  | some old => if old.version > r.2.version then t else insertT t r.1 r.2
  | none => insertT t r.1 r.2

/-- Replay of the reconciliation rule for a single inode number over a
record sequence: keeps the highest version, later record winning ties. -/
def direntResolve (rs : List (Nat × Jffs2Dirent)) (ino : Nat) :
    Option Jffs2Dirent :=
  rs.foldl
    (fun acc r =>
      if r.1 = ino then
        match acc with
        | none => some r.2
        | some cur => if cur.version > r.2.version then acc else some r.2
      else acc)
    none

/-- Embedding of `Jffs2Reader::scan_inode`.  Here `idx` is the absolute image offset of the
payload (node start + 12); `data = idx + 56` points at the compressed
bytes.  All struct fields are read with `unpack_from_le` (always
little-endian). -/
def scan_inode (inodes : List (Nat × List Jffs2Inode)) (mm : List Nat)
    (idx : Nat) : Except JErr (Bool × List (Nat × List Jffs2Inode)) :=
  if mm.length < 56 then .ok (false, inodes)
  else
    let ino := le32At mm 0
    let version := le32At mm 4
    let isize := le32At mm 16
    let mtime := le32At mm 24
    let foffset := le32At mm 32
    let csize := le32At mm 36
    let dsize := le32At mm 40
    let compr := byteAt mm 44
    if csize + 56 > mm.length then .error .dataOob
    else
      let discard : Bool :=
        match lookupT inodes ino with
        | some l =>
            l.any (fun old =>
              decide (old.version > version) && decide (foffset = old.offset))
        | none => false
      if discard then .ok (true, inodes)
      else
        let data := idx + 56
        let new_node : Jffs2Inode :=
          ⟨version, isize, mtime, foffset, csize, dsize, compr, data⟩
        match lookupT inodes ino with
        | some l => .ok (true, insertT inodes ino (l ++ [new_node]))
        | none => .ok (true, insertT inodes ino [new_node])

/-- The fragment-list reconciliation rule applied by `scan_inode` to one
parsed fragment (lines 349–377 of the source). -/
def inodeUpd (t : List (Nat × List Jffs2Inode)) (ino : Nat) (f : Jffs2Inode) :
    List (Nat × List Jffs2Inode) :=
  match lookupT t ino with
  | some l =>
      if l.any (fun old =>
          decide (old.version > f.version) && decide (f.offset = old.offset))
      then t
      else insertT t ino (l ++ [f])
  | none => insertT t ino [f]

/-- One fold step of `direntResolve`. -/
def direntStep (ino : Nat) (acc : Option Jffs2Dirent) (r : Nat × Jffs2Dirent) :
    Option Jffs2Dirent :=
  if r.1 = ino then
    match acc with
    | none => some r.2
    | some cur => if cur.version > r.2.version then acc else some r.2
  else acc

/-! ### The node scanner (`Jffs2Reader::scan`, `Jffs2Reader::new`) -/

/-- Embedding of `Jffs2Reader::pad`. -/
def pad (x : Nat) : Nat := if x % 4 ≠ 0 then x + (4 - x % 4) else x

/-- The two tables populated by the scan. -/
structure ScanState : Type where
  dirents : List (Nat × Jffs2Dirent)
  inodes : List (Nat × List Jffs2Inode)

deriving DecidableEq, Repr

/-- The `while idx < maxmm - 12` loop of `Jffs2Reader::scan`, with the
cursor arithmetic written relative to the node start: the source mutates
`idx` past the 12-byte header while reading it, decrements it by 12 again
before dispatching to `scan_dirent` / `scan_inode`, and then adds
`pad(totlen)` — so a dirent/inode node advances the cursor by
`pad(totlen)` from the node start, while any other node type advances it
by `12 + pad(totlen)` (no decrement happens on that path).  `bound` is the
(wrapping) `maxmm - 12`; the fuel is an upper bound on the iteration count
(each iteration advances `idx` by at least 4), so the fuel-exhausted
branch is unreachable. -/
def scanLoop (buffer : List Nat) (le : Bool) (maxmm bound : Nat) :
    Nat → Nat → ScanState → Except JErr ScanState
  | 0, _, st => .ok st
  | fuel + 1, idx, st =>
      if idx < bound then
        match read_uint16 buffer le idx with
        | .error e => .error e
        | .ok magic =>
            if magic ≠ 0x1985 then
              scanLoop buffer le maxmm bound fuel (idx + 4) st
            else
              match read_uint16 buffer le (idx + 2) with
              | .error e => .error e
              | .ok nodetype =>
                  match read_uint32 buffer le (idx + 4) with
                  | .error e => .error e
                  | .ok totlen =>
                      match read_uint32 buffer le (idx + 8) with
                      | .error e => .error e
                      | .ok _hdr_crc =>
                          if totlen > maxmm - (idx + 12) ∨ totlen = 0 then
                            .ok st
                          else if nodetype = 0xE001 then
                            match sliceE buffer (idx + 12) (idx + totlen) with
                            | .error e => .error e
                            | .ok payload =>
                                match scan_dirent st.dirents payload with
                                | .error e => .error e
                                | .ok (_, dirents1) =>
                                    scanLoop buffer le maxmm bound fuel
                                      (idx + pad totlen) ⟨dirents1, st.inodes⟩
                          else if nodetype = 0xE002 then
                            match sliceE buffer (idx + 12) (idx + totlen) with
                            | .error e => .error e
                            | .ok payload =>
                                match scan_inode st.inodes payload (idx + 12) with
                                | .error e => .error e
                                | .ok (_, inodes1) =>
                                    scanLoop buffer le maxmm bound fuel
                                      (idx + pad totlen) ⟨st.dirents, inodes1⟩
                          else
                            scanLoop buffer le maxmm bound fuel
                              (idx + 12 + pad totlen) st
      else .ok st

/-- Embedding of `Jffs2Reader::scan`, where `maxmm = self.buffer.len() as u32`; the loop
condition `idx < maxmm - 12` subtracts in wrapping `u32` arithmetic, so
for an image shorter than 12 bytes the bound wraps to a huge value.
(Images of at least `2^32` bytes are outside the model.) -/
def scan (buffer : List Nat) (le : Bool) : Except JErr ScanState :=
  let maxmm := buffer.length % 4294967296
  let bound := (maxmm + (4294967296 - 12)) % 4294967296
  scanLoop buffer le maxmm bound (bound + 2) 0 ⟨[], []⟩

/-- Embedding of `Jffs2Reader::new`: requires at least 2 bytes, reads the first two
bytes little-endian, accepts magic `0x1985` (little-endian image) or
`0x8519` (big-endian image) and records the endianness flag. -/
def newReader (buffer : List Nat) : Except JErr Bool :=
  if buffer.length < 2 then .error .tooSmall
  else
    match read_uint16 buffer true 0 with
    | .error e => .error e
    | .ok initial =>
        if initial ≠ 0x1985 ∧ initial ≠ 0x8519 then .error .notJffs2
        else .ok (initial = 0x1985)

/-- Open an image and scan it (`Jffs2Reader::new` followed by `scan`),
returning the endianness flag and the populated tables. -/
def scanImage (buffer : List Nat) : Except JErr (Bool × ScanState) :=
  match newReader buffer with
  | .error e => .error e
  | .ok le =>
      match scan buffer le with
      | .error e => .error e
      | .ok st => .ok (le, st)

/-! ### Paths and `resolve_dirent` -/

/-- One `std::path` component (Unix): `.`, `..`, or a normal name
(kept as its byte string). -/
inductive PathComp : Type where
  | curDir : PathComp
  | parentDir : PathComp
  | normal (s : List Nat) : PathComp

deriving DecidableEq, Repr

/-- A parsed path: a root flag plus the list of components. -/
structure RPath : Type where
  absolute : Bool
  comps : List PathComp

deriving DecidableEq, Repr

/-- Split a byte string on `/` (byte 47). -/
def splitSlash : List Nat → List (List Nat)
  | [] => [[]]
  | c :: rest =>
      if c = 47 then [] :: splitSlash rest
      else
        match splitSlash rest with
        | [] => [[c]]
        | g :: gs => (c :: g) :: gs

/-- One raw component as `std::path` classifies it: `.` disappears
(handled separately when leading), `..` is `ParentDir`, anything else is
a normal component. -/
def compOf (c : List Nat) : Option PathComp :=
  if c = [46] then none
  else if c = [46, 46] then some .parentDir
  else some (.normal c)

/-- Embedding of `Path::new(s).components()` under Unix rules: a leading `/` gives a
root; empty components and interior `.` components disappear; a leading
`.` of a relative path is kept as `CurDir`. -/
def parsePath (s : List Nat) : RPath :=
  let abs : Bool := decide (s.head? = some 47)
  let raw := (splitSlash s).filter (fun c => c ≠ [])
  let comps :=
    match raw with
    | [] => []
    | c :: rest =>
        (if abs = false ∧ c = [46] then [PathComp.curDir]
         else (compOf c).toList) ++ rest.filterMap compOf
  ⟨abs, comps⟩

/-- Embedding of `Path::join` under Unix rules: an absolute right-hand side replaces
the left-hand side. -/
def joinP (p q : RPath) : RPath :=
  if q.absolute then q else ⟨p.absolute, p.comps ++ q.comps⟩

/-- Modelled from the spec: one step of the lexical normalizer (the
external `lexiclean` crate, which is not part of this repository); §4.5
step 4: "Normalize the resulting path lexically: collapse `.`, resolve
`..`, remove redundant separators".  `.` is dropped; `..` cancels a
preceding normal component, is dropped at the root, and is retained when
there is nothing left to cancel on a relative path (a leading `..` cannot
be resolved lexically). -/
def cleanStep (abs : Bool) (acc : List PathComp) (c : PathComp) :
    List PathComp :=
  match c with
  | .curDir => acc
  | .parentDir =>
      match acc.getLast? with
      | some (.normal _) => acc.dropLast
      | some _ => acc ++ [.parentDir]
      | none => if abs then acc else acc ++ [.parentDir]
  | .normal s => acc ++ [.normal s]

/-- Modelled from the spec: the lexical normalizer applied by
`resolve_dirent` (`path.lexiclean()`). -/
def lexiclean (p : RPath) : RPath :=
  ⟨p.absolute, p.comps.foldl (cleanStep p.absolute) []⟩

/-- Embedding of `JffsPathFixer::jffs_fix` (source lines 67–92): with more than one
component, drop a trailing empty normal component. -/
def jffs_fix (p : RPath) : RPath :=
  let count := p.comps.length + (if p.absolute then 1 else 0)
  if count ≤ 1 then p
  else
    match p.comps.getLast? with
    | some (.normal s) =>
        if s = [] then ⟨p.absolute, p.comps.dropLast⟩ else p
    | _ => p

/-- The `for _i in 0..32` loop of `Jffs2Reader::resolve_dirent`. -/
def resolveLoop (t : List (Nat × Jffs2Dirent)) (ntype : Nat) :
    Nat → Jffs2Dirent → RPath → Except JErr (RPath × Nat)
  | 0, _, _ => .error .cycle
  | hops + 1, cnode, path =>
      if cnode.pino = 1 then
        .ok (jffs_fix (lexiclean (joinP (parsePath cnode.fname) path)), ntype)
      else
        match lookupT t cnode.pino with
        | some parent =>
            resolveLoop t ntype hops parent (joinP (parsePath cnode.fname) path)
        | none => .error .noParent

/-- Embedding of `Jffs2Reader::resolve_dirent`. -/
def resolve_dirent (t : List (Nat × Jffs2Dirent)) (node : Nat) :
    Except JErr (RPath × Nat) :=
  match lookupT t node with
  | none => .error .noDirent
  | some dirent => resolveLoop t dirent.ntype 32 dirent ⟨false, []⟩

/-- Spec-side description of the parent walk: does the `pino` chain reach
the root inode `1` within the hop bound, hit a missing parent, or run
out of hops? -/
inductive WalkResult : Type where
  | root : WalkResult
  | missing : WalkResult
  | exceeded : WalkResult

deriving DecidableEq, Repr

def specWalk (t : List (Nat × Jffs2Dirent)) : Nat → Jffs2Dirent → WalkResult
  | 0, _ => .exceeded
  | hops + 1, d =>
      if d.pino = 1 then .root
      else
        match lookupT t d.pino with
        | some parent => specWalk t hops parent
        | none => .missing

/-- A dirent name that is a single plain path component: nonempty, no
separator, and not `.` or `..`. -/
def plainName (s : List Nat) : Prop :=
  s ≠ [] ∧ 47 ∉ s ∧ s ≠ [46] ∧ s ≠ [46, 46]

instance (s : List Nat) : Decidable (plainName s) := by
  unfold plainName
  infer_instance

/-! ### `entries` -/

/-- Embedding of `Jffs2Entry`. -/
structure Jffs2Entry : Type where
  inodes : List Jffs2Inode
  is_file : Bool
  path : RPath

deriving DecidableEq, Repr

/-- The `for i in self.dirents.keys()` loop of `Jffs2Reader::entries`:
resolve each dirent, emit a directory entry for type 4, a file entry
(with the inode's stored fragment list, or empty) for type 8, and skip
anything else. -/
def entriesAux (st : ScanState) :
    List (Nat × Jffs2Dirent) → Except JErr (List Jffs2Entry)
  | [] => .ok []
  | (i, _) :: rest =>
      match resolve_dirent st.dirents i with
      | .error e => .error e
      | .ok (output_path, ntype) =>
          match entriesAux st rest with
          | .error e => .error e
          | .ok tail =>
              if ntype = 4 then .ok (⟨[], false, output_path⟩ :: tail)
              else if ntype = 8 then
                .ok (⟨(lookupT st.inodes i).getD [], true, output_path⟩ :: tail)
              else .ok tail

/-- Embedding of `Jffs2Reader::entries`. -/
def entries (st : ScanState) : Except JErr (List Jffs2Entry) :=
  entriesAux st st.dirents

/-- A minimal little-endian image: one dirent node (parent 1, version 1,
inode 2, type 8 = regular file, name `"f"`), padded to 44 bytes, followed
by 12 bytes of `0xFF` filler (so the `totlen > maxmm - idx` stop rule does
not drop the node). -/
def leOneDirentImage : List Nat :=
  [0x85, 0x19, 0x01, 0xE0, 41, 0, 0, 0, 0, 0, 0, 0,
   1, 0, 0, 0, 1, 0, 0, 0, 2, 0, 0, 0, 0, 0, 0, 0, 1, 8, 0, 0,
   0, 0, 0, 0, 0, 0, 0, 0, 102, 0, 0, 0,
   255, 255, 255, 255, 255, 255, 255, 255, 255, 255, 255, 255]

/-- The image `leOneDirentImage` with the magic and every multi-byte header integer
byte-swapped to big-endian (single bytes and the name untouched). -/
def beOneDirentImage : List Nat :=
  [0x19, 0x85, 0xE0, 0x01, 0, 0, 0, 41, 0, 0, 0, 0,
   0, 0, 0, 1, 0, 0, 0, 1, 0, 0, 0, 2, 0, 0, 0, 0, 1, 8, 0, 0,
   0, 0, 0, 0, 0, 0, 0, 0, 102, 0, 0, 0,
   255, 255, 255, 255, 255, 255, 255, 255, 255, 255, 255, 255]

/-- An image holding one regular-file dirent (inode 2, name `"f"`) and
two ZERO-compressed fragments for inode 2 appearing in the image with
logical offsets 4 then 0, followed by 12 bytes of filler. -/
def twoFragmentImage : List Nat :=
  [0x85, 0x19, 0x01, 0xE0, 41, 0, 0, 0, 0, 0, 0, 0,
   1, 0, 0, 0, 1, 0, 0, 0, 2, 0, 0, 0, 0, 0, 0, 0, 1, 8, 0, 0,
   0, 0, 0, 0, 0, 0, 0, 0, 102, 0, 0, 0] ++
  [0x85, 0x19, 0x02, 0xE0, 68, 0, 0, 0, 0, 0, 0, 0,
   2, 0, 0, 0, 1, 0, 0, 0, 0, 0, 0, 0, 0, 0, 0, 0, 7, 0, 0, 0,
   0, 0, 0, 0, 0, 0, 0, 0, 0, 0, 0, 0, 4, 0, 0, 0, 0, 0, 0, 0,
   3, 0, 0, 0, 1, 0, 0, 0, 0, 0, 0, 0, 0, 0, 0, 0] ++
  [0x85, 0x19, 0x02, 0xE0, 68, 0, 0, 0, 0, 0, 0, 0,
   2, 0, 0, 0, 1, 0, 0, 0, 0, 0, 0, 0, 0, 0, 0, 0, 7, 0, 0, 0,
   0, 0, 0, 0, 0, 0, 0, 0, 0, 0, 0, 0, 0, 0, 0, 0, 0, 0, 0, 0,
   4, 0, 0, 0, 1, 0, 0, 0, 0, 0, 0, 0, 0, 0, 0, 0] ++
  [255, 255, 255, 255, 255, 255, 255, 255, 255, 255, 255, 255]

/-! ### `dump_file`: fragment reassembly and the codec dispatcher -/

/-- The source's codec constants. -/
def JFFS2_COMPR_NONE : Nat := 0x00

def JFFS2_COMPR_ZERO : Nat := 0x01

def JFFS2_COMPR_RTIME : Nat := 0x02

def JFFS2_COMPR_RUBINMIPS : Nat := 0x03

def JFFS2_COMPR_COPY : Nat := 0x04

def JFFS2_COMPR_DYNRUBIN : Nat := 0x05

def JFFS2_COMPR_ZLIB : Nat := 0x06

def JFFS2_COMPR_LZO : Nat := 0x07

def JFFS2_COMPR_LZMA : Nat := 0x08

def LZMA_BEST_LC : Nat := 0

def LZMA_BEST_LP : Nat := 0

def LZMA_BEST_PB : Nat := 0

def DICT_SIZE : Nat := 0x2000

/-- The external decoders (`flate2` zlib, `lzma_rs`, and the C FFI
`lzo1x_decompress_safe` / `dynrubin_decompress`), taken as oracles.  The
two FFI decoders write into a preallocated buffer of exactly `dsize`
bytes which is then written out whole, so they are modelled as arbitrary
byte producers forced to that length by `padTo`. -/
structure Decoders : Type where
  zlib : List Nat → Except JErr (List Nat)
  lzma : List Nat → Except JErr (List Nat)
  lzo : List Nat → Nat → List Nat
  dynrubin : List Nat → Nat → List Nat

/-- A preallocated `n`-byte output buffer holding the decoder's bytes. -/
def padTo (n : Nat) (l : List Nat) : List Nat :=
  l.take n ++ List.replicate (n - l.length) 0

/-- Embedding of `u32::to_le_bytes`. -/
def le32bytes (n : Nat) : List Nat :=
  [n % 256, n / 256 % 256, n / 65536 % 256, n / 16777216 % 256]

/-- Embedding of `u64::to_le_bytes`. -/
def le64bytes (n : Nat) : List Nat :=
  [n % 256, n / 256 % 256, n / 65536 % 256, n / 16777216 % 256,
   n / 4294967296 % 256, n / 1099511627776 % 256,
   n / 281474976710656 % 256, n / 72057594037927936 % 256]

/-- The input handed to the LZMA decoder by `dump_file` (lines 532–556):
the reconstructed header — properties byte `(pb*5 + lp)*9 + lc`,
little-endian `DICT_SIZE`, little-endian `u64` uncompressed size `dsize`
— followed by the raw compressed bytes. -/
def lzmaInput (dsize : Nat) (payload : List Nat) : List Nat :=
  let pb := LZMA_BEST_PB
  let lp := LZMA_BEST_LP
  let lc := LZMA_BEST_LC
  let properties := (pb * 5 + lp) * 9 + lc
  [properties] ++ le32bytes DICT_SIZE ++ le64bytes dsize ++ payload

/-- The ZERO branch: `dsize / 0x1000` blocks of `0x1000` zero bytes, then
the remainder block. -/
def zeroChunks (dsize : Nat) : List Nat :=
  List.replicate (dsize / 0x1000 * 0x1000) 0 ++
    List.replicate (dsize % 0x1000) 0

/-- The bytes `dump_file` writes for one fragment, by codec tag, in the
source's branch order.  Note: no branch truncates its output to `dsize`. -/
def fragOut (dec : Decoders) (buffer : List Nat) (inode : Jffs2Inode) :
    Except JErr (List Nat) :=
  if inode.compr = JFFS2_COMPR_NONE then
    sliceE buffer inode.data (inode.data + inode.csize)
  else if inode.compr = JFFS2_COMPR_ZERO then
    .ok (zeroChunks inode.dsize)
  else if inode.compr = JFFS2_COMPR_ZLIB then
    match sliceE buffer inode.data (inode.data + inode.csize) with
    | .error e => .error e
    | .ok input => dec.zlib input
  else if inode.compr = JFFS2_COMPR_RTIME then
    match sliceE buffer inode.data (inode.data + inode.csize) with
    | .error e => .error e
    | .ok input => rtime_decompress input inode.dsize
  else if inode.compr = JFFS2_COMPR_LZO then
    match sliceE buffer inode.data (inode.data + inode.csize) with
    | .error e => .error e
    | .ok input => .ok (padTo inode.dsize (dec.lzo input inode.dsize))
  else if inode.compr = JFFS2_COMPR_LZMA then
    match sliceE buffer inode.data (inode.data + inode.csize) with
    | .error e => .error e
    | .ok input => dec.lzma (lzmaInput inode.dsize input)
  else if inode.compr = JFFS2_COMPR_DYNRUBIN then
    match sliceE buffer inode.data (inode.data + inode.csize) with
    | .error e => .error e
    | .ok input => .ok (padTo inode.dsize (dec.dynrubin input inode.dsize))
  else if inode.compr = JFFS2_COMPR_RUBINMIPS then .error .rubinmips
  else if inode.compr = JFFS2_COMPR_COPY then .error .coprNever
  else .error .unknownCompr

/-- Stable insertion by ascending logical offset. -/
def insertByOffset (x : Jffs2Inode) : List Jffs2Inode → List Jffs2Inode
  | [] => [x]
  | y :: ys =>
      if x.offset ≤ y.offset then x :: y :: ys else y :: insertByOffset x ys

/-- Embedding of `sorted_inodes.sort_by_key(|k| k.offset)`: a stable sort by logical
offset (any stable sort computes the same list; insertion sort is used
here so that the definition evaluates). -/
def sortByOffset : List Jffs2Inode → List Jffs2Inode
  | [] => []
  | x :: xs => insertByOffset x (sortByOffset xs)

/-- The write loop of `dump_file`: each sorted fragment's decoder output
is appended in turn; an error aborts (bytes already written by earlier
fragments are outside this byte-level model). -/
def dumpLoop (dec : Decoders) (buffer : List Nat) :
    List Jffs2Inode → Except JErr (List Nat)
  | [] => .ok []
  | inode :: rest =>
      match fragOut dec buffer inode with
      | .error e => .error e
      | .ok bs =>
          match dumpLoop dec buffer rest with
          | .error e => .error e
          | .ok tailBytes => .ok (bs ++ tailBytes)

/-- Embedding of `Jffs2Reader::dump_file`, as the byte stream written for one file
(directory creation and the file sink are outside the model). -/
def dump_file (dec : Decoders) (buffer : List Nat) (frags : List Jffs2Inode) :
    Except JErr (List Nat) :=
  dumpLoop dec buffer (sortByOffset frags)

/-- Trivial decoder oracles (used by concrete instantiations). -/
def decTriv : Decoders :=
  ⟨fun _ => .ok [], fun _ => .ok [], fun _ _ => [], fun _ _ => []⟩

theorem lookupT_insertT {α : Type} (t : List (Nat × α)) (k j : Nat) (v : α) :
    lookupT (insertT t k v) j = if j = k then some v else lookupT t j := by
  induction t with
  | nil =>
      by_cases h : j = k <;> simp [insertT, lookupT, h]
  | cons p rest ih =>
      obtain ⟨k', v'⟩ := p
      by_cases hk : k = k'
      · subst hk
        by_cases hj : j = k <;> simp [insertT, lookupT, hj]
      · by_cases hj : j = k'
        · subst hj
          simp [insertT, lookupT, hk, Ne.symm hk]
        · simp [insertT, lookupT, hk, hj, ih]

theorem sliceE_ok_length {buffer : List Nat} {a b : Nat} {out : List Nat}
    (h : sliceE buffer a b = .ok out) : out.length = b - a := by
  unfold sliceE at h
  split at h
  · rename_i hg
    cases h
    simp [List.length_take, List.length_drop]
    omega
  · cases h

theorem takeAppendLeft {α : Type} (l l' : List α) (n : Nat) (h : n ≤ l.length) :
    (l ++ l').take n = l.take n := by
  induction l generalizing n with
  | nil => simp at h; simp [h]
  | cons a rest ih =>
      cases n with
      | zero => simp
      | succ m =>
          simp only [List.cons_append, List.take_succ_cons]
          rw [ih]
          simpa using h

theorem dropAppendLeft {α : Type} (l l' : List α) (n : Nat) (h : n ≤ l.length) :
    (l ++ l').drop n = l.drop n ++ l' := by
  induction l generalizing n with
  | nil => simp at h; simp [h]
  | cons a rest ih =>
      cases n with
      | zero => simp
      | succ m =>
          simp only [List.cons_append, List.drop_succ_cons]
          exact ih m (by simpa using h)

theorem dropEqConsOfLt {α : Type} [Inhabited α] (l : List α) (n : Nat)
    (h : n < l.length) : l.drop n = l.getD n default :: l.drop (n + 1) := by
  induction l generalizing n with
  | nil => simp at h
  | cons a rest ih =>
      cases n with
      | zero => simp
      | succ m =>
          simp only [List.drop_succ_cons, List.getD_cons_succ]
          exact ih m (by simpa using h)

/-- When the source region lies fully inside `dst`, the byte-by-byte copy
produces exactly the block copy. -/
theorem selfCopy_eq_block (r : Nat) :
    ∀ (dst : List Nat) (back : Nat), back + r ≤ dst.length →
      selfCopy dst back r = .ok (dst ++ (dst.drop back).take r) := by
  induction r with
  | zero => intro dst back _; simp [selfCopy]
  | succ m ih =>
      intro dst back h
      have hlt : back < dst.length := by omega
      have hget : dst[back]? = some (dst.getD back 0) := by
        rw [List.getElem?_eq_getElem hlt]
        simp [List.getD, List.getElem?_eq_getElem hlt]
      have hrw : selfCopy dst back (m + 1)
          = selfCopy (dst ++ [dst.getD back 0]) (back + 1) m := by
        rw [selfCopy, hget]
      rw [hrw, ih (dst ++ [dst.getD back 0]) (back + 1) (by simp; omega)]
      congr 1
      rw [dropAppendLeft _ _ _ (by omega)]
      rw [takeAppendLeft _ _ m (by simp [List.length_drop]; omega)]
      rw [dropEqConsOfLt dst back hlt]
      simp

theorem rtimeLoop_eq_specLoop (input : List Nat) (dstlen : Nat) :
    ∀ (fuel : Nat) (dst : List Nat) (pos : Nat) (position : Nat → Nat),
      rtimeLoop input dstlen fuel dst pos position =
        rtimeSpecLoop input dstlen fuel dst pos position := by
  intro fuel
  induction fuel with
  | zero => intro dst pos position; rfl
  | succ f ih =>
      intro dst pos position
      rw [rtimeLoop, rtimeSpecLoop]
      by_cases hguard : dst.length ≥ dstlen
      · simp [hguard]
      · simp only [if_neg hguard]
        cases hv : input[pos]? with
        | none => rfl
        | some val =>
            cases hr : input[pos + 1]? with
            | none => rfl
            | some r =>
                simp only []
                by_cases h0 : r = 0
                · simp [h0, ih]
                · rcases Nat.lt_trichotomy (position val + r) (dst.length + 1) with
                    hlt | heq | hgt
                  · have h1 : ¬ dst.length + 1 ≤ position val + r := by omega
                    have h2 : position val + r ≤ dst.length + 1 := by omega
                    simp [h0, h1, h2, ih]
                  · have h1 : dst.length + 1 ≤ position val + r := by omega
                    have h2 : position val + r ≤ dst.length + 1 := by omega
                    rw [selfCopy_eq_block r (dst ++ [val]) (position val)
                      (by simp; omega)]
                    simp [h0, h1, h2, ih]
                  · have h1 : dst.length + 1 ≤ position val + r := by omega
                    have h2 : ¬ position val + r ≤ dst.length + 1 := by omega
                    cases hsc : selfCopy (dst ++ [val]) (position val) r with
                    | error e => simp [h0, h1, h2, hsc]
                    | ok dst2 => simp [h0, h1, h2, hsc, ih]

/-- C7: the RTIME decoder in the code computes exactly the specification's
reference algorithm: the 256-entry position table, `back = position[v]`
read before `position[v] = |dst|` is recorded (with `v` already appended),
and copying that block-copies only when the source region lies strictly
inside `dst`, byte-by-byte otherwise — which coincides with the
specification's "fully inside ⇒ block copy" rule because at the boundary
`back + r = |dst|` the byte-by-byte copy produces the identical bytes.
The two functions agree on every input, in particular on every input on
which the code terminates normally. -/
theorem rtime_decompress_eq_rtimeSpec (input : List Nat) (dstlen : Nat) :
    rtime_decompress input dstlen = rtimeSpec input dstlen :=
  rtimeLoop_eq_specLoop input dstlen (dstlen + 1) [] 0 (fun _ => 0)

theorem selfCopy_ok_of_lt :
    ∀ (r : Nat) (dst : List Nat) (back : Nat), back < dst.length →
      ∃ out, selfCopy dst back r = .ok out ∧ out.length = dst.length + r := by
  intro r
  induction r with
  | zero => intro dst back _; exact ⟨dst, rfl, by simp⟩
  | succ m ih =>
      intro dst back h
      have hget : dst[back]? = some (dst.getD back 0) := by
        rw [List.getElem?_eq_getElem h]
        simp [List.getD, List.getElem?_eq_getElem h]
      obtain ⟨out, hout, hlen⟩ :=
        ih (dst ++ [dst.getD back 0]) (back + 1) (by simp; omega)
      refine ⟨out, ?_, by simp at hlen; omega⟩
      rw [selfCopy, hget]
      exact hout

theorem selfCopy_ok_length :
    ∀ (r : Nat) (dst : List Nat) (back : Nat) (out : List Nat),
      selfCopy dst back r = .ok out → out.length = dst.length + r := by
  intro r
  induction r with
  | zero =>
      intro dst back out h
      rw [selfCopy] at h
      cases h
      omega
  | succ m ih =>
      intro dst back out h
      rw [selfCopy] at h
      cases hget : dst[back]? with
      | none => rw [hget] at h; cases h
      | some b =>
          rw [hget] at h
          have := ih _ _ _ h
          simp at this
          omega

theorem rtimeLoop_ne_backOob (input : List Nat) (dstlen : Nat) :
    ∀ (fuel : Nat) (dst : List Nat) (pos : Nat) (position : Nat → Nat),
      rtInv position dst →
      rtimeLoop input dstlen fuel dst pos position ≠ .error .rtimeBackOob := by
  intro fuel
  induction fuel with
  | zero => intro dst pos position _; simp [rtimeLoop]
  | succ f ih =>
      intro dst pos position hinv
      rw [rtimeLoop]
      by_cases hguard : dst.length ≥ dstlen
      · simp [hguard]
      · simp only [if_neg hguard]
        cases hv : input[pos]? with
        | none => simp
        | some val =>
            cases hr : input[pos + 1]? with
            | none => simp
            | some r =>
                simp only []
                have hinv1 : rtInv
                    (fun b => if b = val then (dst ++ [val]).length else position b)
                    (dst ++ [val]) := by
                  intro b
                  by_cases hb : b = val
                  · simp [hb]
                  · simp only [if_neg hb]
                    calc position b ≤ dst.length := hinv b
                      _ ≤ (dst ++ [val]).length := by simp
                by_cases h0 : r = 0
                · simp only [h0, ne_eq, not_true_eq_false, if_false]
                  exact ih _ _ _ hinv1
                · simp only [h0, ne_eq, not_false_eq_true, if_true]
                  by_cases hge : (dst ++ [val]).length ≤ position val + r
                  · simp only [ge_iff_le, if_pos hge]
                    have hback : position val < (dst ++ [val]).length := by
                      have := hinv val
                      simp
                      omega
                    obtain ⟨out, hout, hlen⟩ :=
                      selfCopy_ok_of_lt r (dst ++ [val]) (position val) hback
                    rw [hout]
                    apply ih
                    intro b
                    by_cases hb : b = val
                    · simp [hb, hlen]
                    · simp only [if_neg hb]
                      have h1 := hinv b
                      have h2 : dst.length ≤ (dst ++ [val]).length := by simp
                      omega
                  · simp only [ge_iff_le, if_neg hge]
                    apply ih
                    intro b
                    by_cases hb : b = val
                    · simp [hb]
                    · simp only [if_neg hb]
                      have h1 := hinv b
                      simp
                      omega

theorem rtimeLoop_ok_length (input : List Nat) (dstlen : Nat) :
    ∀ (fuel : Nat) (dst : List Nat) (pos : Nat) (position : Nat → Nat)
      (out : List Nat), dstlen ≤ dst.length + fuel →
      rtimeLoop input dstlen fuel dst pos position = .ok out →
      dstlen ≤ out.length := by
  intro fuel
  induction fuel with
  | zero =>
      intro dst pos position out hfuel hok
      rw [rtimeLoop] at hok
      cases hok
      omega
  | succ f ih =>
      intro dst pos position out hfuel hok
      rw [rtimeLoop] at hok
      by_cases hguard : dst.length ≥ dstlen
      · rw [if_pos hguard] at hok
        cases hok
        omega
      · rw [if_neg hguard] at hok
        cases hv : input[pos]? with
        | none => rw [hv] at hok; cases hok
        | some val =>
            rw [hv] at hok
            cases hr : input[pos + 1]? with
            | none => rw [hr] at hok; cases hok
            | some r =>
                rw [hr] at hok
                simp only [] at hok
                by_cases h0 : r = 0
                · simp only [h0, ne_eq, not_true_eq_false, if_false] at hok
                  exact ih _ _ _ _ (by simp; omega) hok
                · simp only [h0, ne_eq, not_false_eq_true, if_true] at hok
                  by_cases hge : (dst ++ [val]).length ≤ position val + r
                  · simp only [ge_iff_le, if_pos hge] at hok
                    cases hsc : selfCopy (dst ++ [val]) (position val) r with
                    | error e => rw [hsc] at hok; cases hok
                    | ok dst2 =>
                        rw [hsc] at hok
                        have hlen2 := selfCopy_ok_length r (dst ++ [val])
                          (position val) dst2 hsc
                        exact ih _ _ _ _ (by simp at hlen2 ⊢; omega) hok
                  · simp only [ge_iff_le, if_neg hge] at hok
                    exact ih _ _ _ _ (by simp; omega) hok

theorem rtimeLoop_ok_of_input (input : List Nat) (dstlen : Nat) :
    ∀ (fuel : Nat) (dst : List Nat) (pos : Nat) (position : Nat → Nat),
      rtInv position dst → dstlen ≤ dst.length + fuel →
      pos + 2 * (dstlen - dst.length) ≤ input.length →
      ∃ out, rtimeLoop input dstlen fuel dst pos position = .ok out := by
  intro fuel
  induction fuel with
  | zero => intro dst pos position _ _ _; exact ⟨dst, rfl⟩
  | succ f ih =>
      intro dst pos position hinv hfuel hbudget
      rw [rtimeLoop]
      by_cases hguard : dst.length ≥ dstlen
      · exact ⟨dst, by rw [if_pos hguard]⟩
      · rw [if_neg hguard]
        have hlt : dst.length < dstlen := Nat.lt_of_not_le hguard
        have hpos : pos < input.length := by omega
        have hpos1 : pos + 1 < input.length := by omega
        rw [List.getElem?_eq_getElem hpos, List.getElem?_eq_getElem hpos1]
        simp only []
        set val := input[pos] with hval
        set r := input[pos + 1] with hrv
        have hinv1 : rtInv
            (fun b => if b = val then (dst ++ [val]).length else position b)
            (dst ++ [val]) := by
          intro b
          by_cases hb : b = val
          · simp [hb]
          · simp only [if_neg hb]
            have := hinv b
            simp
            omega
        by_cases h0 : r = 0
        · simp only [h0, ne_eq, not_true_eq_false, if_false]
          apply ih _ _ _ hinv1 (by simp; omega)
          simp
          omega
        · simp only [h0, ne_eq, not_false_eq_true, if_true]
          by_cases hge : (dst ++ [val]).length ≤ position val + r
          · simp only [ge_iff_le, if_pos hge]
            have hback : position val < (dst ++ [val]).length := by
              have := hinv val
              simp
              omega
            obtain ⟨mid, hmid, hmidlen⟩ :=
              selfCopy_ok_of_lt r (dst ++ [val]) (position val) hback
            rw [hmid]
            apply ih _ _ _ ?_ ?_ ?_
            · intro b
              by_cases hb : b = val
              · simp [hb, hmidlen]
              · simp only [if_neg hb]
                have h1 := hinv b
                simp at hmidlen
                simp
                omega
            · simp at hmidlen
              omega
            · simp at hmidlen
              omega
          · simp only [ge_iff_le, if_neg hge]
            apply ih _ _ _ ?_ ?_ ?_
            · intro b
              by_cases hb : b = val
              · simp [hb]
              · simp only [if_neg hb]
                have := hinv b
                simp
                omega
            · simp
              omega
            · simp
              omega

/-- C10 (amended): back-reference reads of the RTIME decoder are always
in bounds — the decoder never reaches the `dst[backoffs]` panic — and any
normally-returned output has length at least `dsize`; moreover whenever
the input holds at least `2·dsize` bytes the decoder does return normally.
However (see the counterexample) input reads are NOT always in bounds:
when the input is exhausted before `dsize` output bytes are produced, the
Rust code panics on `compressed_buffer[pos..pos+1]`, modelled here as the
`.rtimeInputOob` error. -/
theorem rtime_decompress_safety (input : List Nat) (dstlen : Nat) :
    rtime_decompress input dstlen ≠ .error .rtimeBackOob ∧
    (∀ out, rtime_decompress input dstlen = .ok out → dstlen ≤ out.length) ∧
    (2 * dstlen ≤ input.length →
      ∃ out, rtime_decompress input dstlen = .ok out) := by
  refine ⟨?_, ?_, ?_⟩
  · exact rtimeLoop_ne_backOob input dstlen (dstlen + 1) [] 0 (fun _ => 0)
      (fun b => Nat.zero_le _)
  · intro out hok
    exact rtimeLoop_ok_length input dstlen (dstlen + 1) [] 0 (fun _ => 0) out
      (by simp) hok
  · intro hin
    exact rtimeLoop_ok_of_input input dstlen (dstlen + 1) [] 0 (fun _ => 0)
      (fun b => Nat.zero_le _) (by simp) (by simpa using hin)

/-- Witness for `rtime_decompress_safety` at the concrete input
`[7, 0]`, `dsize = 1`: the decoder returns `[7]` normally. -/
theorem rtime_decompress_safety_witness :
    rtime_decompress [7, 0] 1 ≠ .error .rtimeBackOob ∧
    1 ≤ ([7] : List Nat).length ∧
    (∃ out, rtime_decompress [7, 0] 1 = .ok out) := by
  have h := rtime_decompress_safety [7, 0] 1
  exact ⟨h.1, h.2.1 [7] (by rfl), h.2.2 (by decide)⟩

/-- C10 counterexample: on the empty input with requested output length 1
the decoder's very first input read is out of bounds (a panic in the Rust
code), so `rtime_decompress` does NOT perform only in-bounds input reads,
and does NOT return a result for all inputs. -/
theorem rtime_decompress_input_oob_counterexample :
    rtime_decompress [] 1 = .error .rtimeInputOob := by rfl

theorem direntUpd_lookup (t : List (Nat × Jffs2Dirent)) (r : Nat × Jffs2Dirent)
    (ino : Nat) :
    lookupT (direntUpd t r) ino = direntStep ino (lookupT t ino) r := by
  obtain ⟨k, d⟩ := r
  by_cases h : k = ino
  · subst h
    cases hl : lookupT t k with
    | none => simp [direntUpd, direntStep, hl, lookupT_insertT]
    | some old =>
        by_cases hv : old.version > d.version
        · simp [direntUpd, direntStep, hl, hv]
        · simp [direntUpd, direntStep, hl, hv, lookupT_insertT]
  · cases hl : lookupT t k with
    | none =>
        simp [direntUpd, direntStep, hl, lookupT_insertT, h, Ne.symm h]
    | some old =>
        by_cases hv : old.version > d.version
        · simp [direntUpd, direntStep, hl, hv, h]
        · simp [direntUpd, direntStep, hl, hv, h, lookupT_insertT, Ne.symm h]

theorem lookup_foldl_direntUpd :
    ∀ (rs : List (Nat × Jffs2Dirent)) (t : List (Nat × Jffs2Dirent)) (ino : Nat),
      lookupT (rs.foldl direntUpd t) ino =
        rs.foldl (direntStep ino) (lookupT t ino) := by
  intro rs
  induction rs with
  | nil => intro t ino; rfl
  | cons r rest ih =>
      intro t ino
      simp only [List.foldl_cons]
      rw [ih, direntUpd_lookup]

theorem direntStep_some (ino : Nat) (c : Jffs2Dirent) (r : Nat × Jffs2Dirent) :
    ∃ c', direntStep ino (some c) r = some c' ∧ c.version ≤ c'.version := by
  by_cases h : r.1 = ino
  · by_cases hv : c.version > r.2.version
    · exact ⟨c, by simp [direntStep, h, hv], le_refl _⟩
    · exact ⟨r.2, by simp [direntStep, h, hv], by omega⟩
  · exact ⟨c, by simp [direntStep, h], le_refl _⟩

theorem foldl_direntStep_mono :
    ∀ (rs : List (Nat × Jffs2Dirent)) (ino : Nat) (c d : Jffs2Dirent),
      rs.foldl (direntStep ino) (some c) = some d → c.version ≤ d.version := by
  intro rs
  induction rs with
  | nil => intro ino c d h; cases h; exact le_refl _
  | cons r rest ih =>
      intro ino c d h
      simp only [List.foldl_cons] at h
      obtain ⟨c', hc', hle⟩ := direntStep_some ino c r
      rw [hc'] at h
      exact le_trans hle (ih ino c' d h)

theorem foldl_direntStep_bound :
    ∀ (rs : List (Nat × Jffs2Dirent)) (ino : Nat) (acc : Option Jffs2Dirent)
      (d : Jffs2Dirent), rs.foldl (direntStep ino) acc = some d →
      ∀ r ∈ rs, r.1 = ino → r.2.version ≤ d.version := by
  intro rs
  induction rs with
  | nil => intro ino acc d _ r hr; cases hr
  | cons r0 rest ih =>
      intro ino acc d h r hr0 hino
      simp only [List.foldl_cons] at h
      rcases List.mem_cons.mp hr0 with hr | hr
      · subst hr
        have hstep : ∃ c₁, direntStep ino acc r = some c₁ ∧
            r.2.version ≤ c₁.version := by
          cases acc with
          | none => exact ⟨r.2, by simp [direntStep, hino], le_refl _⟩
          | some cur =>
              by_cases hv : cur.version > r.2.version
              · exact ⟨cur, by simp [direntStep, hino, hv], by omega⟩
              · exact ⟨r.2, by simp [direntStep, hino, hv], le_refl _⟩
        obtain ⟨c₁, hc₁, hle⟩ := hstep
        rw [hc₁] at h
        exact le_trans hle (foldl_direntStep_mono rest ino c₁ d h)
      · exact ih ino (direntStep ino acc r0) d h r hr hino

theorem foldl_direntStep_total :
    ∀ (rs : List (Nat × Jffs2Dirent)) (ino : Nat) (acc : Option Jffs2Dirent),
      ((∃ c, acc = some c) ∨ ∃ r ∈ rs, r.1 = ino) →
      ∃ d, rs.foldl (direntStep ino) acc = some d := by
  intro rs
  induction rs with
  | nil =>
      intro ino acc h
      rcases h with ⟨c, hc⟩ | ⟨r, hr, _⟩
      · exact ⟨c, by simp [hc]⟩
      · cases hr
  | cons r0 rest ih =>
      intro ino acc h
      simp only [List.foldl_cons]
      rcases h with ⟨c, hc⟩ | ⟨r, hr0, hino⟩
      · subst hc
        obtain ⟨c', hc', _⟩ := direntStep_some ino c r0
        exact ih ino _ (Or.inl ⟨c', by rw [hc']⟩)
      · rcases List.mem_cons.mp hr0 with hr | hr
        · subst hr
          cases acc with
          | none =>
              exact ih ino _ (Or.inl ⟨r.2, by simp [direntStep, hino]⟩)
          | some c =>
              obtain ⟨c', hc', _⟩ := direntStep_some ino c r
              exact ih ino _ (Or.inl ⟨c', by rw [hc']⟩)
        · exact ih ino _ (Or.inr ⟨r, hr, hino⟩)

/-- C4: version reconciliation of the dirent table.  `scan_dirent` applies
`direntUpd` to each successfully parsed record; one step discards the new
record exactly when the stored record's version is strictly greater and
otherwise replaces it (so at equal version the later-seen record wins);
folding a record sequence from the empty table resolves each inode number
to the replay `direntResolve`, whose result carries the highest observed
version for that inode; and for an inode appearing with versions
`v1 < v2` the final record is the `v2` record in either order. -/
theorem scan_dirent_version_reconciliation :
    (∀ (dirents : List (Nat × Jffs2Dirent)) (mm fname : List Nat),
      ¬ mm.length < 28 → byteAt mm 16 + 28 ≤ mm.length →
      read_str mm 28 (byteAt mm 16) = .ok fname →
      scan_dirent dirents mm = .ok (true, direntUpd dirents
        (le32At mm 8,
         ⟨le32At mm 0, le32At mm 4, le32At mm 12, byteAt mm 17, fname⟩))) ∧
    (∀ (t : List (Nat × Jffs2Dirent)) (r : Nat × Jffs2Dirent) (ino : Nat),
      lookupT (direntUpd t r) ino = direntStep ino (lookupT t ino) r) ∧
    (∀ (t : List (Nat × Jffs2Dirent)) (ino : Nat) (d old : Jffs2Dirent),
      lookupT t ino = some old →
      direntUpd t (ino, d) =
        if old.version > d.version then t else insertT t ino d) ∧
    (∀ (rs : List (Nat × Jffs2Dirent)) (ino : Nat),
      lookupT (rs.foldl direntUpd []) ino = direntResolve rs ino) ∧
    (∀ (rs : List (Nat × Jffs2Dirent)) (ino : Nat) (d : Jffs2Dirent),
      direntResolve rs ino = some d →
      ∀ r ∈ rs, r.1 = ino → r.2.version ≤ d.version) ∧
    (∀ (rs : List (Nat × Jffs2Dirent)) (ino : Nat),
      (∃ r ∈ rs, r.1 = ino) → ∃ d, direntResolve rs ino = some d) ∧
    (∀ (ino : Nat) (d1 d2 : Jffs2Dirent), d1.version < d2.version →
      lookupT ([(ino, d1), (ino, d2)].foldl direntUpd []) ino = some d2 ∧
      lookupT ([(ino, d2), (ino, d1)].foldl direntUpd []) ino = some d2) := by
  refine ⟨?_, direntUpd_lookup, ?_, ?_, ?_, ?_, ?_⟩
  · intro dirents mm fname h28 hname hstr
    have hn : ¬ byteAt mm 16 + 28 > mm.length := by omega
    simp only [scan_dirent, direntUpd, if_neg h28, if_neg hn, hstr]
    cases hl : lookupT dirents (le32At mm 8) with
    | none => simp
    | some old =>
        by_cases hv : old.version > le32At mm 4
        · simp [hv]
        · simp [hv]
  · intro t ino d old hl
    simp [direntUpd, hl]
  · intro rs ino
    rw [direntResolve, lookup_foldl_direntUpd rs [] ino]
    rfl
  · intro rs ino d h
    exact foldl_direntStep_bound rs ino none d h
  · intro rs ino h
    exact foldl_direntStep_total rs ino none (Or.inr h)
  · intro ino d1 d2 hlt
    have h1 : ¬ d1.version > d2.version := by omega
    have h2 : d2.version > d1.version := hlt
    constructor
    · simp [List.foldl_cons, List.foldl_nil, direntUpd, lookupT, insertT, h1,
        lookupT_insertT]
    · simp [List.foldl_cons, List.foldl_nil, direntUpd, lookupT, insertT, h2,
        lookupT_insertT]

/-- Witness for `scan_dirent_version_reconciliation`: concrete two-record
sequences with versions `1 < 2` resolve to the version-2 record in either
order, and `scan_dirent` applied to a concrete 29-byte payload performs
the `direntUpd` update. -/
theorem scan_dirent_version_reconciliation_witness :
    (lookupT ([(5, Jffs2Dirent.mk 1 1 0 8 [97]),
               (5, Jffs2Dirent.mk 1 2 0 8 [98])].foldl direntUpd []) 5 =
        some (Jffs2Dirent.mk 1 2 0 8 [98]) ∧
      lookupT ([(5, Jffs2Dirent.mk 1 2 0 8 [98]),
                (5, Jffs2Dirent.mk 1 1 0 8 [97])].foldl direntUpd []) 5 =
        some (Jffs2Dirent.mk 1 2 0 8 [98])) ∧
    scan_dirent [] (List.replicate 28 0 ++ [102]) =
      .ok (true, direntUpd []
        (le32At (List.replicate 28 0 ++ [102]) 8,
         ⟨le32At (List.replicate 28 0 ++ [102]) 0,
          le32At (List.replicate 28 0 ++ [102]) 4,
          le32At (List.replicate 28 0 ++ [102]) 12,
          byteAt (List.replicate 28 0 ++ [102]) 17, []⟩)) := by
  constructor
  · exact (scan_dirent_version_reconciliation).2.2.2.2.2.2 5
      (Jffs2Dirent.mk 1 1 0 8 [97]) (Jffs2Dirent.mk 1 2 0 8 [98]) (by decide)
  · exact (scan_dirent_version_reconciliation).1 [] (List.replicate 28 0 ++ [102])
      [] (by decide) (by decide) (by rfl)

/-- C5: fragment-list version reconciliation.  `scan_inode` applies
`inodeUpd` to each successfully parsed fragment; the fragment is discarded
exactly when the inode's existing list already contains a fragment with
the same logical offset and strictly greater version, and is otherwise
appended to the end of the list (no other deduplication); other inode
numbers' lists are untouched. -/
theorem scan_inode_fragment_reconciliation :
    (∀ (inodes : List (Nat × List Jffs2Inode)) (mm : List Nat) (idx : Nat),
      ¬ mm.length < 56 → le32At mm 36 + 56 ≤ mm.length →
      scan_inode inodes mm idx = .ok (true, inodeUpd inodes (le32At mm 0)
        ⟨le32At mm 4, le32At mm 16, le32At mm 24, le32At mm 32,
         le32At mm 36, le32At mm 40, byteAt mm 44, idx + 56⟩)) ∧
    (∀ (t : List (Nat × List Jffs2Inode)) (ino : Nat) (f : Jffs2Inode)
      (j : Nat),
      lookupT (inodeUpd t ino f) j =
        if j = ino then
          some (if ∃ old ∈ (lookupT t ino).getD [],
                    old.version > f.version ∧ f.offset = old.offset
                then (lookupT t ino).getD []
                else (lookupT t ino).getD [] ++ [f])
        else lookupT t j) := by
  constructor
  · intro inodes mm idx h56 hcs
    have hcs' : ¬ le32At mm 36 + 56 > mm.length := by omega
    simp only [scan_inode, inodeUpd, if_neg h56, if_neg hcs']
    cases hl : lookupT inodes (le32At mm 0) with
    | none => simp
    | some l =>
        cases hany : l.any (fun old =>
            decide (old.version > le32At mm 4) &&
              decide (le32At mm 32 = old.offset)) with
        | true => simp [hany]
        | false => simp [hany]
  · intro t ino f j
    cases hl : lookupT t ino with
    | none =>
        simp only [inodeUpd, hl, lookupT_insertT, Option.getD_none]
        by_cases hj : j = ino <;> simp [hj]
    | some l =>
        cases hany : l.any (fun old =>
            decide (old.version > f.version) &&
              decide (f.offset = old.offset)) with
        | true =>
            have hex : ∃ old ∈ l, old.version > f.version ∧
                f.offset = old.offset := by
              rw [List.any_eq_true] at hany
              obtain ⟨old, hmem, hp⟩ := hany
              rw [Bool.and_eq_true, decide_eq_true_eq, decide_eq_true_eq] at hp
              exact ⟨old, hmem, hp.1, hp.2⟩
            simp only [inodeUpd, hl, hany, if_true]
            by_cases hj : j = ino
            · subst hj
              simp [hl, hex]
            · simp [hj]
        | false =>
            have hex : ¬ ∃ old ∈ l, old.version > f.version ∧
                f.offset = old.offset := by
              intro ⟨old, hmem, h1, h2⟩
              have : l.any (fun old =>
                  decide (old.version > f.version) &&
                    decide (f.offset = old.offset)) = true := by
                rw [List.any_eq_true]
                exact ⟨old, hmem, by simp [h1, h2]⟩
              rw [hany] at this
              cases this
            simp only [inodeUpd, hl, hany, Bool.false_eq_true, if_false]
            rw [lookupT_insertT]
            by_cases hj : j = ino
            · subst hj
              simp [hl, hex]
            · simp [hj]

/-- Witness for `scan_inode_fragment_reconciliation`: a concrete 56-byte
all-zero payload parses and performs the `inodeUpd` update from the empty
table, and the update appends at equal version (no deduplication). -/
theorem scan_inode_fragment_reconciliation_witness :
    scan_inode [] (List.replicate 56 0) 100 =
      .ok (true, inodeUpd [] (le32At (List.replicate 56 0) 0)
        ⟨le32At (List.replicate 56 0) 4, le32At (List.replicate 56 0) 16,
         le32At (List.replicate 56 0) 24, le32At (List.replicate 56 0) 32,
         le32At (List.replicate 56 0) 36, le32At (List.replicate 56 0) 40,
         byteAt (List.replicate 56 0) 44, 100 + 56⟩) ∧
    lookupT (inodeUpd [(3, [Jffs2Inode.mk 1 0 0 0 0 4 0 12])] 3
        (Jffs2Inode.mk 1 0 0 0 0 4 0 90)) 3 =
      some [Jffs2Inode.mk 1 0 0 0 0 4 0 12, Jffs2Inode.mk 1 0 0 0 0 4 0 90] := by
  constructor
  · exact (scan_inode_fragment_reconciliation).1 [] (List.replicate 56 0) 100
      (by decide) (by decide)
  · have h := (scan_inode_fragment_reconciliation).2
      [(3, [Jffs2Inode.mk 1 0 0 0 0 4 0 12])] 3 (Jffs2Inode.mk 1 0 0 0 0 4 0 90) 3
    rw [h]
    decide

theorem read_uint16_ok_bound {buffer : List Nat} {le : Bool} {off v : Nat}
    (h : read_uint16 buffer le off = .ok v) : off + 2 ≤ buffer.length := by
  unfold read_uint16 at h
  split at h
  · cases h
  · omega

theorem read_uint32_ok_bound {buffer : List Nat} {le : Bool} {off v : Nat}
    (h : read_uint32 buffer le off = .ok v) : off + 4 ≤ buffer.length := by
  unfold read_uint32 at h
  split at h
  · cases h
  · omega

/-- On a buffer shorter than 12 bytes, one scan-loop iteration at any
in-bound cursor either fails with an error or resyncs by 4. -/
theorem scanShortStep (buffer : List Nat) (le : Bool) (maxmm : Nat)
    (fuel idx : Nat) (st : ScanState) (bound : Nat)
    (hshort : buffer.length < 12) (hidx : idx < bound) :
    (∃ e, scanLoop buffer le maxmm bound (fuel + 1) idx st = .error e) ∨
    (scanLoop buffer le maxmm bound (fuel + 1) idx st =
        scanLoop buffer le maxmm bound fuel (idx + 4) st ∧
      idx + 2 ≤ buffer.length) := by
  rw [scanLoop, if_pos hidx]
  cases hm : read_uint16 buffer le idx with
  | error e => exact Or.inl ⟨e, rfl⟩
  | ok magic =>
      have hb2 := read_uint16_ok_bound hm
      by_cases hmag : magic ≠ 0x1985
      · exact Or.inr ⟨by simp [hmag], hb2⟩
      · simp only [hmag, if_false, ite_false]
        cases hn : read_uint16 buffer le (idx + 2) with
        | error e => exact Or.inl ⟨e, rfl⟩
        | ok nodetype =>
            cases ht : read_uint32 buffer le (idx + 4) with
            | error e => exact Or.inl ⟨e, rfl⟩
            | ok totlen =>
                cases hc : read_uint32 buffer le (idx + 8) with
                | error e => exact Or.inl ⟨e, rfl⟩
                | ok crc =>
                    have hb12 := read_uint32_ok_bound hc
                    omega

/-- C6 (amended): the scan-cursor behaviour.  The loop runs while
`idx < maxmm - 12` computed in wrapping `u32` arithmetic (not `idx ≤`):
an image of exactly 12 bytes runs no loop body and the scan succeeds with
empty tables, but an image of 2–11 bytes wraps the bound and the loop body
does execute, failing on an out-of-bounds header read instead of
succeeding; on a magic mismatch the cursor advances by exactly 4; when
`totlen` is zero or exceeds the bytes remaining after the 12-byte header
the scan stops cleanly, preserving everything parsed so far; node type
`0xE001` is dispatched to the dirent parser and `0xE002` to the inode
parser, the cursor advancing by `pad(totlen)`; any other node type is
ignored but the cursor advances by `12 + pad(totlen)` (not by
`pad(totlen)`); and `pad` agrees with the specification's
`pad4(x) = x + ((4 − x mod 4) mod 4)`. -/
theorem scan_cursor_behaviour :
    (∀ x, pad x = x + ((4 - x % 4) % 4)) ∧
    (∀ (buffer : List Nat) (le : Bool), buffer.length = 12 →
      scan buffer le = .ok ⟨[], []⟩) ∧
    (∀ (buffer : List Nat) (le : Bool), 2 ≤ buffer.length →
      buffer.length < 12 → ∃ e, scan buffer le = .error e) ∧
    (∀ (buffer : List Nat) (le : Bool) (maxmm bound fuel idx : Nat)
      (st : ScanState) (magic : Nat), idx < bound →
      read_uint16 buffer le idx = .ok magic → magic ≠ 0x1985 →
      scanLoop buffer le maxmm bound (fuel + 1) idx st =
        scanLoop buffer le maxmm bound fuel (idx + 4) st) ∧
    (∀ (buffer : List Nat) (le : Bool) (maxmm bound fuel idx : Nat)
      (st : ScanState) (nodetype totlen crc : Nat), idx < bound →
      read_uint16 buffer le idx = .ok 0x1985 →
      read_uint16 buffer le (idx + 2) = .ok nodetype →
      read_uint32 buffer le (idx + 4) = .ok totlen →
      read_uint32 buffer le (idx + 8) = .ok crc →
      (totlen > maxmm - (idx + 12) ∨ totlen = 0) →
      scanLoop buffer le maxmm bound (fuel + 1) idx st = .ok st) ∧
    (∀ (buffer : List Nat) (le : Bool) (maxmm bound fuel idx : Nat)
      (st : ScanState) (totlen crc : Nat), idx < bound →
      read_uint16 buffer le idx = .ok 0x1985 →
      read_uint16 buffer le (idx + 2) = .ok 0xE001 →
      read_uint32 buffer le (idx + 4) = .ok totlen →
      read_uint32 buffer le (idx + 8) = .ok crc →
      ¬ (totlen > maxmm - (idx + 12) ∨ totlen = 0) →
      scanLoop buffer le maxmm bound (fuel + 1) idx st =
        (sliceE buffer (idx + 12) (idx + totlen)).bind (fun payload =>
          (scan_dirent st.dirents payload).bind (fun p =>
            scanLoop buffer le maxmm bound fuel (idx + pad totlen)
              ⟨p.2, st.inodes⟩))) ∧
    (∀ (buffer : List Nat) (le : Bool) (maxmm bound fuel idx : Nat)
      (st : ScanState) (totlen crc : Nat), idx < bound →
      read_uint16 buffer le idx = .ok 0x1985 →
      read_uint16 buffer le (idx + 2) = .ok 0xE002 →
      read_uint32 buffer le (idx + 4) = .ok totlen →
      read_uint32 buffer le (idx + 8) = .ok crc →
      ¬ (totlen > maxmm - (idx + 12) ∨ totlen = 0) →
      scanLoop buffer le maxmm bound (fuel + 1) idx st =
        (sliceE buffer (idx + 12) (idx + totlen)).bind (fun payload =>
          (scan_inode st.inodes payload (idx + 12)).bind (fun p =>
            scanLoop buffer le maxmm bound fuel (idx + pad totlen)
              ⟨st.dirents, p.2⟩))) ∧
    (∀ (buffer : List Nat) (le : Bool) (maxmm bound fuel idx : Nat)
      (st : ScanState) (nodetype totlen crc : Nat), idx < bound →
      read_uint16 buffer le idx = .ok 0x1985 →
      read_uint16 buffer le (idx + 2) = .ok nodetype →
      read_uint32 buffer le (idx + 4) = .ok totlen →
      read_uint32 buffer le (idx + 8) = .ok crc →
      ¬ (totlen > maxmm - (idx + 12) ∨ totlen = 0) →
      nodetype ≠ 0xE001 → nodetype ≠ 0xE002 →
      scanLoop buffer le maxmm bound (fuel + 1) idx st =
        scanLoop buffer le maxmm bound fuel (idx + 12 + pad totlen) st) := by
  refine ⟨?_, ?_, ?_, ?_, ?_, ?_, ?_, ?_⟩
  · intro x
    unfold pad
    split <;> omega
  · intro buffer le h
    have hb : (buffer.length % 4294967296 + (4294967296 - 12)) % 4294967296
        = 0 := by rw [h]
    simp only [scan]
    rw [hb]
    have h2 : (0 : Nat) + 2 = 1 + 1 := rfl
    rw [h2, scanLoop]
    simp
  · intro buffer le h2 h12
    obtain ⟨B, hB⟩ :
        ∃ B, (buffer.length % 4294967296 + (4294967296 - 12)) % 4294967296
          = B + 4 := ⟨buffer.length + 4294967280, by omega⟩
    have hlt0 : (0 : Nat) < B + 4 := by omega
    have hlt4 : (4 : Nat) < B + 4 := by omega
    have hlt8 : (8 : Nat) < B + 4 := by omega
    have hlt12 : (12 : Nat) < B + 4 := by omega
    simp only [scan]
    rw [hB]
    have hf : B + 4 + 2 = (B + 5) + 1 := by omega
    rw [hf]
    rcases scanShortStep buffer le (buffer.length % 4294967296) (B + 5) 0
        ⟨[], []⟩ (B + 4) h12 hlt0 with ⟨e, he⟩ | ⟨heq, _⟩
    · exact ⟨e, he⟩
    · rw [heq]
      have hf1 : B + 5 = (B + 4) + 1 := by omega
      rw [hf1]
      rcases scanShortStep buffer le (buffer.length % 4294967296) (B + 4)
          (0 + 4) ⟨[], []⟩ (B + 4) h12 hlt4 with ⟨e, he⟩ | ⟨heq1, _⟩
      · exact ⟨e, he⟩
      · rw [heq1]
        have hf2 : B + 4 = (B + 3) + 1 := by omega
        rw [hf2]
        rcases scanShortStep buffer le (buffer.length % 4294967296) (B + 3)
            (0 + 4 + 4) ⟨[], []⟩ (B + 4) h12 hlt8 with ⟨e, he⟩ | ⟨heq2, _⟩
        · exact ⟨e, he⟩
        · rw [heq2]
          have hf3 : B + 3 = (B + 2) + 1 := by omega
          rw [hf3]
          rcases scanShortStep buffer le (buffer.length % 4294967296) (B + 2)
              (0 + 4 + 4 + 4) ⟨[], []⟩ (B + 4) h12 hlt12 with
              ⟨e, he⟩ | ⟨_, habs⟩
          · exact ⟨e, he⟩
          · omega
  · intro buffer le maxmm bound fuel idx st magic hidx hm hmag
    rw [scanLoop, if_pos hidx, hm]
    simp [hmag]
  · intro buffer le maxmm bound fuel idx st nodetype totlen crc hidx hm hn ht hc
      hstop
    rw [scanLoop, if_pos hidx, hm]
    simp only [ne_eq, not_true_eq_false, if_false, ite_false, if_neg,
      not_false_eq_true]
    rw [hn, ht, hc]
    simp [hstop]
  · intro buffer le maxmm bound fuel idx st totlen crc hidx hm hn ht hc hstop
    rw [scanLoop, if_pos hidx, hm]
    simp only [ne_eq, not_true_eq_false, if_false, ite_false]
    rw [hn, ht, hc]
    simp only [if_neg hstop, if_pos rfl]
    cases hs : sliceE buffer (idx + 12) (idx + totlen) with
    | error e => simp [Except.bind]
    | ok payload =>
        cases hd : scan_dirent st.dirents payload with
        | error e => simp [Except.bind, hd]
        | ok p =>
            obtain ⟨b, dirents1⟩ := p
            simp [Except.bind, hd]
  · intro buffer le maxmm bound fuel idx st totlen crc hidx hm hn ht hc hstop
    rw [scanLoop, if_pos hidx, hm]
    simp only [ne_eq, not_true_eq_false, if_false, ite_false]
    rw [hn, ht, hc]
    have hne : (0xE002 : Nat) ≠ 0xE001 := by decide
    simp only [if_neg hstop, if_neg hne, if_pos rfl]
    cases hs : sliceE buffer (idx + 12) (idx + totlen) with
    | error e => simp [Except.bind]
    | ok payload =>
        cases hd : scan_inode st.inodes payload (idx + 12) with
        | error e => simp [Except.bind, hd]
        | ok p =>
            obtain ⟨b, inodes1⟩ := p
            simp [Except.bind, hd]
  · intro buffer le maxmm bound fuel idx st nodetype totlen crc hidx hm hn ht hc
      hstop hne1 hne2
    rw [scanLoop, if_pos hidx, hm]
    simp only [ne_eq, not_true_eq_false, if_false, ite_false]
    rw [hn, ht, hc]
    simp [hstop, hne1, hne2]

/-- C6 counterexample: the 2-byte image holding only the little-endian
magic `0x1985`.  The claim says that for any image shorter than 12 bytes
the loop body never executes and the scan succeeds with empty tables; in
fact `maxmm - 12` wraps, the loop body runs once, and the scan fails with
an out-of-bounds read of the node type at offset 2. -/
theorem scan_short_image_counterexample :
    scan [0x85, 0x19] true = .error .oobRead := by decide

/-- Witness for `scan_cursor_behaviour`: a concrete 12-byte image scans to
empty tables, a concrete 3-byte image fails, and a concrete resync step
advances the cursor by 4. -/
theorem scan_cursor_behaviour_witness :
    scan (List.replicate 12 0) true = .ok ⟨[], []⟩ ∧
    (∃ e, scan [0x85, 0x19, 0] true = .error e) ∧
    scanLoop [0, 0] true 2 5 (3 + 1) 0 ⟨[], []⟩ =
      scanLoop [0, 0] true 2 5 3 (0 + 4) ⟨[], []⟩ := by
  refine ⟨?_, ?_, ?_⟩
  · exact (scan_cursor_behaviour).2.1 (List.replicate 12 0) true (by decide)
  · exact (scan_cursor_behaviour).2.2.1 [0x85, 0x19, 0] true (by decide)
      (by decide)
  · exact (scan_cursor_behaviour).2.2.2.1 [0, 0] true 2 5 3 0 ⟨[], []⟩ 0
      (by decide) (by decide) (by decide)

theorem lookupT_mem {α : Type} :
    ∀ (t : List (Nat × α)) (k : Nat) (v : α),
      lookupT t k = some v → (k, v) ∈ t := by
  intro t
  induction t with
  | nil => intro k v h; cases h
  | cons p rest ih =>
      intro k v h
      obtain ⟨k', v'⟩ := p
      rw [lookupT] at h
      by_cases hk : k = k'
      · rw [if_pos hk] at h
        injection h with h2
        subst hk
        subst h2
        exact List.mem_cons_self _ _
      · rw [if_neg hk] at h
        exact List.mem_cons_of_mem _ (ih k v h)

theorem splitSlash_no_slash : ∀ {s : List Nat}, 47 ∉ s → splitSlash s = [s] := by
  intro s
  induction s with
  | nil => intro _; rfl
  | cons c rest ih =>
      intro h
      have hc : c ≠ 47 := fun hh => h (by simp [hh])
      have hr : 47 ∉ rest := fun hh => h (by simp [hh])
      rw [splitSlash, if_neg hc, ih hr]

theorem parsePath_plain {s : List Nat} (h : plainName s) :
    parsePath s = ⟨false, [.normal s]⟩ := by
  obtain ⟨hne, hns, hd1, hd2⟩ := h
  have habs : (decide (s.head? = some 47)) = false := by
    cases s with
    | nil => simp at hne
    | cons a rest =>
        have ha : a ≠ 47 := fun hh => hns (by simp [hh])
        simp [ha]
  simp only [parsePath, habs, splitSlash_no_slash hns]
  simp [hne, hd1, hd2, compOf]

theorem foldl_cleanStep_normal (abs : Bool) :
    ∀ (l acc : List PathComp), (∀ c ∈ l, ∃ s, c = .normal s) →
      l.foldl (cleanStep abs) acc = acc ++ l := by
  intro l
  induction l with
  | nil => intro acc _; simp
  | cons c rest ih =>
      intro acc h
      obtain ⟨s, hs⟩ := h c (by simp)
      subst hs
      simp only [List.foldl_cons]
      rw [show cleanStep abs acc (.normal s) = acc ++ [.normal s] from rfl]
      have h2 : ∀ c ∈ rest, ∃ s, c = PathComp.normal s :=
        fun c hc => h c (List.mem_cons_of_mem _ hc)
      rw [ih (acc ++ [PathComp.normal s]) h2]
      simp

theorem lexiclean_plain {p : RPath}
    (h : ∀ c ∈ p.comps, ∃ s, c = .normal s) : lexiclean p = p := by
  obtain ⟨abs, comps⟩ := p
  simp only [lexiclean]
  rw [foldl_cleanStep_normal abs comps [] (by simpa using h)]
  simp

theorem jffs_fix_plain {p : RPath}
    (h : ∀ c ∈ p.comps, ∃ s, c = .normal s ∧ s ≠ []) : jffs_fix p = p := by
  obtain ⟨abs, comps⟩ := p
  by_cases hc : comps.length + (if abs then 1 else 0) ≤ 1
  · simp [jffs_fix, hc]
  · simp only [jffs_fix, if_neg hc]
    cases hg : comps.getLast? with
    | none => rfl
    | some c =>
        have hcm : c ∈ comps := by
          obtain ⟨hne, hceq⟩ := List.mem_getLast?_eq_getLast
            (show c ∈ comps.getLast? from Option.mem_def.mpr hg)
          subst hceq
          exact List.getLast_mem hne
        obtain ⟨s, hs, hne⟩ := h c (by simpa using hcm)
        subst hs
        simp [hne]

theorem resolveLoop_walk (t : List (Nat × Jffs2Dirent)) (ntype : Nat)
    (hplain : ∀ p ∈ t, plainName p.2.fname) :
    ∀ (hops : Nat) (d : Jffs2Dirent) (path : RPath),
      plainName d.fname → path.absolute = false →
      (∀ c ∈ path.comps, ∃ s, c = .normal s ∧ s ≠ []) →
      (match specWalk t hops d with
       | .root => ∃ p, resolveLoop t ntype hops d path = .ok (p, ntype) ∧
           p.absolute = false ∧
           (∀ c ∈ p.comps, ∃ s, c = .normal s ∧ s ≠ []) ∧
           lexiclean p = p ∧ jffs_fix p = p
       | .missing => resolveLoop t ntype hops d path = .error .noParent
       | .exceeded => resolveLoop t ntype hops d path = .error .cycle) := by
  intro hops
  induction hops with
  | zero => intro d path _ _ _; simp [specWalk, resolveLoop]
  | succ n ih =>
      intro d path hd habs hcomps
      have hq2 : joinP (parsePath d.fname) path =
          ⟨false, .normal d.fname :: path.comps⟩ := by
        rw [parsePath_plain hd]
        obtain ⟨pabs, pcomps⟩ := path
        simp at habs
        simp [joinP, habs]
      have hall : ∀ c ∈ (RPath.mk false (.normal d.fname :: path.comps)).comps,
          ∃ s, c = .normal s ∧ s ≠ [] := by
        intro c hc
        rcases List.mem_cons.mp (by simpa using hc) with hc1 | hc1
        · exact ⟨d.fname, hc1, hd.1⟩
        · exact hcomps c hc1
      by_cases hp : d.pino = 1
      · have hsw : specWalk t (n + 1) d = .root := by
          rw [specWalk, if_pos hp]
        rw [hsw]
        refine ⟨⟨false, .normal d.fname :: path.comps⟩, ?_, rfl, hall, ?_, ?_⟩
        · rw [resolveLoop, if_pos hp, hq2]
          rw [lexiclean_plain (fun c hc => ⟨(hall c hc).choose,
            (hall c hc).choose_spec.1⟩)]
          rw [jffs_fix_plain hall]
        · exact lexiclean_plain (fun c hc => ⟨(hall c hc).choose,
            (hall c hc).choose_spec.1⟩)
        · exact jffs_fix_plain hall
      · cases hl : lookupT t d.pino with
        | none =>
            have hsw : specWalk t (n + 1) d = .missing := by
              rw [specWalk, if_neg hp, hl]
            rw [hsw, resolveLoop, if_neg hp, hl]
        | some parent =>
            have hpar : plainName parent.fname :=
              hplain (d.pino, parent) (lookupT_mem t d.pino parent hl)
            have hsw : specWalk t (n + 1) d = specWalk t n parent := by
              rw [specWalk, if_neg hp, hl]
            have hrl : resolveLoop t ntype (n + 1) d path =
                resolveLoop t ntype n parent (joinP (parsePath d.fname) path) := by
              rw [resolveLoop, if_neg hp, hl]
            rw [hsw, hrl, hq2]
            exact ih parent ⟨false, .normal d.fname :: path.comps⟩ hpar rfl hall

/-- C9 (amended): provided every dirent name in the table is a single
plain path component (nonempty, containing no separator, and not `.` or
`..`), every successful resolution returns a relative path whose
components are all nonempty normal names — no `..`, no `.`, no empty
components — and which is a fixed point of the lexical normalizer and of
`jffs_fix`; resolution fails with the no-dirent error when the inode has
no dirent, with the unresolved-parent error when the walk meets a parent
inode absent from the table within the 32-hop bound, and with the cycle
error when the chain does not reach `pino = 1` within 32 hops.  (Without
the plain-name proviso the path-shape part is false: see the
counterexample with a dirent named `..`.) -/
theorem resolve_dirent_path_properties (t : List (Nat × Jffs2Dirent))
    (hplain : ∀ p ∈ t, plainName p.2.fname) (node : Nat) :
    (lookupT t node = none → resolve_dirent t node = .error .noDirent) ∧
    (∀ d, lookupT t node = some d →
      (match specWalk t 32 d with
       | .root => ∃ p, resolve_dirent t node = .ok (p, d.ntype) ∧
           p.absolute = false ∧
           (∀ c ∈ p.comps, ∃ s, c = .normal s ∧ s ≠ []) ∧
           lexiclean p = p ∧ jffs_fix p = p
       | .missing => resolve_dirent t node = .error .noParent
       | .exceeded => resolve_dirent t node = .error .cycle)) := by
  constructor
  · intro h
    simp [resolve_dirent, h]
  · intro d hd
    have hr : resolve_dirent t node = resolveLoop t d.ntype 32 d ⟨false, []⟩ := by
      simp [resolve_dirent, hd]
    have hm := resolveLoop_walk t d.ntype hplain 32 d ⟨false, []⟩
      (hplain (node, d) (lookupT_mem t node d hd)) rfl (by simp)
    cases hsw : specWalk t 32 d with
    | root => rw [hsw] at hm; obtain ⟨p, hp1, hp2⟩ := hm; exact ⟨p, hr ▸ hp1, hp2⟩
    | missing => rw [hsw] at hm; rw [hr]; exact hm
    | exceeded => rw [hsw] at hm; rw [hr]; exact hm

/-- C9 counterexample: a dirent at the root whose name is the two bytes
`".."`.  Resolution succeeds and the returned path consists of the `..`
component — the original claim's "contains no `..` components" is false
on the code (the lexical normalizer cannot resolve a leading `..` of a
relative path, and `jffs_fix` keeps single-component paths unchanged). -/
theorem resolve_dirent_dotdot_counterexample :
    resolve_dirent [(2, ⟨1, 1, 0, 8, [46, 46]⟩)] 2 =
      .ok (⟨false, [.parentDir]⟩, 8) ∧
    PathComp.parentDir ∈ (RPath.mk false [.parentDir]).comps := by
  constructor
  · rfl
  · simp

/-- Witness for `resolve_dirent_path_properties`: a one-dirent table with
the plain name `"a"` resolves to the relative single-component path
`a`. -/
theorem resolve_dirent_path_properties_witness :
    ∃ p, resolve_dirent [(2, ⟨1, 1, 0, 8, [97]⟩)] 2 = .ok (p, 8) ∧
      p.absolute = false ∧
      (∀ c ∈ p.comps, ∃ s, c = PathComp.normal s ∧ s ≠ []) ∧
      lexiclean p = p ∧ jffs_fix p = p := by
  have h := (resolve_dirent_path_properties [(2, ⟨1, 1, 0, 8, [46+51]⟩)]
    (by decide) 2).2 ⟨1, 1, 0, 8, [46+51]⟩ (by rfl)
  exact h

set_option maxRecDepth 40000 in
/-- C1 (code bug): the endianness detected from the first two bytes is
honoured only by the 12-byte node-header reads; the dirent/inode payload
integers are parsed with `unpack_from_le`, i.e. always little-endian
(`scan_dirent` / `scan_inode`).  Consequently the byte-swapped image does
NOT scan to the same tree: the little-endian image yields a dirent for
inode 2 with parent 1, while its byte-swap yields a dirent for inode
`0x02000000` with parent `0x01000000`, whose path resolution then fails —
refuting the claimed swap-invariance of extraction. -/
theorem endianness_not_applied_to_payloads :
    scanImage leOneDirentImage =
      .ok (true, ⟨[(2, ⟨1, 1, 0, 8, [102]⟩)], []⟩) ∧
    scanImage beOneDirentImage =
      .ok (false, ⟨[(33554432, ⟨16777216, 16777216, 0, 8, [102]⟩)], []⟩) ∧
    lookupT [(33554432, (⟨16777216, 16777216, 0, 8, [102]⟩ : Jffs2Dirent))] 2 =
      none ∧
    resolve_dirent [(33554432, ⟨16777216, 16777216, 0, 8, [102]⟩)] 33554432 =
      .error .noParent ∧
    resolve_dirent [(2, (⟨1, 1, 0, 8, [102]⟩ : Jffs2Dirent))] 2 =
      .ok (⟨false, [.normal [102]]⟩, 8) := by
  refine ⟨by decide, by decide, by decide, by decide, by decide⟩

/-- C3 (amended): `entries` yields, in dirent-table order, one entry per
dirent that resolves: a directory entry (`is_file = false`, empty
fragment list) for type 4, a file entry (`is_file = true`, the inode's
STORED fragment list in scan/insertion order — or empty when no inode
exists for that number) for type 8; dirents of any other type are
skipped.  The fragment list of a file entry is NOT sorted by logical
offset (sorting happens only in `dump_file`). -/
theorem entries_shape :
    ∀ (st : ScanState) (es : List Jffs2Entry), entries st = .ok es →
      es = st.dirents.filterMap (fun p =>
        match resolve_dirent st.dirents p.1 with
        | .ok (output_path, ntype) =>
            if ntype = 4 then some ⟨[], false, output_path⟩
            else if ntype = 8 then
              some ⟨(lookupT st.inodes p.1).getD [], true, output_path⟩
            else none
        | .error _ => none) := by
  have aux : ∀ (st : ScanState) (l : List (Nat × Jffs2Dirent))
      (es : List Jffs2Entry), entriesAux st l = .ok es →
      es = l.filterMap (fun p =>
        match resolve_dirent st.dirents p.1 with
        | .ok (output_path, ntype) =>
            if ntype = 4 then some ⟨[], false, output_path⟩
            else if ntype = 8 then
              some ⟨(lookupT st.inodes p.1).getD [], true, output_path⟩
            else none
        | .error _ => none) := by
    intro st l
    induction l with
    | nil =>
        intro es h
        rw [entriesAux] at h
        cases h
        rfl
    | cons p rest ih =>
        intro es h
        obtain ⟨i, d⟩ := p
        rw [entriesAux] at h
        cases hr : resolve_dirent st.dirents i with
        | error e => rw [hr] at h; cases h
        | ok q =>
            obtain ⟨output_path, ntype⟩ := q
            rw [hr] at h
            dsimp only at h
            cases ha : entriesAux st rest with
            | error e => rw [ha] at h; dsimp only at h; cases h
            | ok tail =>
                rw [ha] at h
                dsimp only at h
                have htail := ih tail ha
                by_cases h4 : ntype = 4
                · rw [if_pos h4] at h
                  cases h
                  simp [List.filterMap_cons, hr, h4, htail]
                · rw [if_neg h4] at h
                  by_cases h8 : ntype = 8
                  · rw [if_pos h8] at h
                    cases h
                    simp [List.filterMap_cons, hr, h4, h8, htail]
                  · rw [if_neg h8] at h
                    cases h
                    simp [List.filterMap_cons, hr, h4, h8, htail]
  intro st es h
  exact aux st st.dirents es h

/-- Witness for `entries_shape`: a one-directory table. -/
theorem entries_shape_witness :
    [(⟨[], false, ⟨false, [.normal [97]]⟩⟩ : Jffs2Entry)] =
      (ScanState.mk [(7, ⟨1, 1, 0, 4, [97]⟩)] []).dirents.filterMap (fun p =>
        match resolve_dirent (ScanState.mk [(7, ⟨1, 1, 0, 4, [97]⟩)] []).dirents
            p.1 with
        | .ok (output_path, ntype) =>
            if ntype = 4 then some ⟨[], false, output_path⟩
            else if ntype = 8 then
              some ⟨(lookupT (ScanState.mk [(7, ⟨1, 1, 0, 4, [97]⟩)] []).inodes
                p.1).getD [], true, output_path⟩
            else none
        | .error _ => none) :=
  entries_shape (ScanState.mk [(7, ⟨1, 1, 0, 4, [97]⟩)] [])
    [⟨[], false, ⟨false, [.normal [97]]⟩⟩] (by rfl)

set_option maxRecDepth 100000 in
/-- C3 counterexample: scanning `twoFragmentImage` stores inode 2's
fragments in scan order (offset 4, then offset 0), and the file entry
produced by `entries` carries that unsorted list — refuting the claim
that the fragment list in an entry is ordered by ascending logical
offset. -/
theorem entries_fragments_not_sorted_counterexample :
    scanImage twoFragmentImage = .ok (true,
      ⟨[(2, ⟨1, 1, 0, 8, [102]⟩)],
       [(2, [⟨1, 7, 0, 4, 0, 3, 1, 112⟩, ⟨1, 7, 0, 0, 0, 4, 1, 180⟩])]⟩) ∧
    entries ⟨[(2, ⟨1, 1, 0, 8, [102]⟩)],
       [(2, [⟨1, 7, 0, 4, 0, 3, 1, 112⟩, ⟨1, 7, 0, 0, 0, 4, 1, 180⟩])]⟩ =
      .ok [⟨[⟨1, 7, 0, 4, 0, 3, 1, 112⟩, ⟨1, 7, 0, 0, 0, 4, 1, 180⟩], true,
        ⟨false, [.normal [102]]⟩⟩] ∧
    ¬ List.Pairwise (fun (a b : Jffs2Inode) => a.offset ≤ b.offset)
      [⟨1, 7, 0, 4, 0, 3, 1, 112⟩, ⟨1, 7, 0, 0, 0, 4, 1, 180⟩] := by
  refine ⟨by decide, by decide, by decide⟩

theorem padTo_length (n : Nat) (l : List Nat) : (padTo n l).length = n := by
  simp [padTo, List.length_take]
  omega

theorem insertByOffset_perm (x : Jffs2Inode) :
    ∀ l, (insertByOffset x l).Perm (x :: l) := by
  intro l
  induction l with
  | nil => exact List.Perm.refl _
  | cons y ys ih =>
      rw [insertByOffset]
      by_cases h : x.offset ≤ y.offset
      · rw [if_pos h]
      · rw [if_neg h]
        exact (List.Perm.cons y ih).trans (List.Perm.swap x y ys)

theorem sortByOffset_perm : ∀ l, (sortByOffset l).Perm l := by
  intro l
  induction l with
  | nil => exact List.Perm.refl _
  | cons x xs ih =>
      rw [sortByOffset]
      exact (insertByOffset_perm x (sortByOffset xs)).trans (List.Perm.cons x ih)

theorem dumpLoop_forall2 (dec : Decoders) (buffer : List Nat) :
    ∀ (l : List Jffs2Inode) (bs : List Nat),
      dumpLoop dec buffer l = .ok bs →
      ∃ outs, List.Forall₂ (fun f o => fragOut dec buffer f = .ok o) l outs ∧
        bs = outs.flatten ∧ bs.length = (outs.map List.length).sum := by
  intro l
  induction l with
  | nil =>
      intro bs h
      rw [dumpLoop] at h
      cases h
      exact ⟨[], List.Forall₂.nil, by simp, by simp⟩
  | cons inode rest ih =>
      intro bs h
      rw [dumpLoop] at h
      cases hf : fragOut dec buffer inode with
      | error e => rw [hf] at h; cases h
      | ok b0 =>
          rw [hf] at h
          cases hd : dumpLoop dec buffer rest with
          | error e => rw [hd] at h; cases h
          | ok tailBytes =>
              rw [hd] at h
              cases h
              obtain ⟨outs, hfa, hjoin, hlen⟩ := ih tailBytes hd
              refine ⟨b0 :: outs, List.Forall₂.cons hf hfa, ?_, ?_⟩
              · simp [hjoin]
              · simp [hjoin]

theorem fragOut_ok_length (dec : Decoders) (buffer : List Nat)
    (inode : Jffs2Inode) (bs : List Nat) (h : fragOut dec buffer inode = .ok bs) :
    (inode.compr = 0 → bs.length = inode.csize) ∧
    (inode.compr = 1 → bs.length = inode.dsize) ∧
    (inode.compr = 2 → inode.dsize ≤ bs.length) ∧
    (inode.compr = 7 → bs.length = inode.dsize) ∧
    (inode.compr = 5 → bs.length = inode.dsize) := by
  refine ⟨?_, ?_, ?_, ?_, ?_⟩ <;> intro hc
  · rw [fragOut, if_pos (by rw [hc]; rfl)] at h
    have := sliceE_ok_length h
    omega
  · rw [fragOut, if_neg (by rw [hc]; decide), if_pos (by rw [hc]; rfl)] at h
    cases h
    have := Nat.div_add_mod inode.dsize 0x1000
    simp [zeroChunks]
    omega
  · rw [fragOut, if_neg (by rw [hc]; decide), if_neg (by rw [hc]; decide),
      if_neg (by rw [hc]; decide), if_pos (by rw [hc]; rfl)] at h
    cases hs : sliceE buffer inode.data (inode.data + inode.csize) with
    | error e => rw [hs] at h; cases h
    | ok input =>
        rw [hs] at h
        exact rtimeLoop_ok_length input inode.dsize (inode.dsize + 1) [] 0
          (fun _ => 0) bs (by simp) h
  · rw [fragOut, if_neg (by rw [hc]; decide), if_neg (by rw [hc]; decide),
      if_neg (by rw [hc]; decide), if_neg (by rw [hc]; decide),
      if_pos (by rw [hc]; rfl)] at h
    cases hs : sliceE buffer inode.data (inode.data + inode.csize) with
    | error e => rw [hs] at h; cases h
    | ok input =>
        rw [hs] at h
        cases h
        exact padTo_length _ _
  · rw [fragOut, if_neg (by rw [hc]; decide), if_neg (by rw [hc]; decide),
      if_neg (by rw [hc]; decide), if_neg (by rw [hc]; decide),
      if_neg (by rw [hc]; decide), if_neg (by rw [hc]; decide),
      if_pos (by rw [hc]; rfl)] at h
    cases hs : sliceE buffer inode.data (inode.data + inode.csize) with
    | error e => rw [hs] at h; cases h
    | ok input =>
        rw [hs] at h
        cases h
        exact padTo_length _ _

/-- C2 (amended): the byte count `dump_file` writes for a file is the sum
of the fragments' decoder-output lengths, with NO truncation to `dsize`:
a NONE fragment contributes exactly `csize` bytes, ZERO / LZO / DYNRUBIN
contribute exactly `dsize`, RTIME contributes its full output (at least
`dsize`, possibly more), and ZLIB / LZMA contribute whatever their
decoders produce.  Fragments are written in ascending-offset order, a
permutation of the fragment list. -/
theorem dump_file_written_length :
    (∀ (dec : Decoders) (buffer : List Nat) (frags : List Jffs2Inode)
      (bs : List Nat), dump_file dec buffer frags = .ok bs →
      ∃ outs, List.Forall₂ (fun f o => fragOut dec buffer f = .ok o)
          (sortByOffset frags) outs ∧
        bs = outs.flatten ∧ bs.length = (outs.map List.length).sum) ∧
    (∀ (dec : Decoders) (buffer : List Nat) (inode : Jffs2Inode)
      (bs : List Nat), fragOut dec buffer inode = .ok bs →
      (inode.compr = 0 → bs.length = inode.csize) ∧
      (inode.compr = 1 → bs.length = inode.dsize) ∧
      (inode.compr = 2 → inode.dsize ≤ bs.length) ∧
      (inode.compr = 7 → bs.length = inode.dsize) ∧
      (inode.compr = 5 → bs.length = inode.dsize)) ∧
    (∀ frags : List Jffs2Inode, (sortByOffset frags).Perm frags) := by
  refine ⟨?_, fragOut_ok_length, sortByOffset_perm⟩
  intro dec buffer frags bs h
  exact dumpLoop_forall2 dec buffer (sortByOffset frags) bs h

/-- Witness for `dump_file_written_length`: one concrete ZERO fragment of
`dsize = 1` writes exactly the single zero byte. -/
theorem dump_file_written_length_witness :
    ∃ outs, List.Forall₂ (fun f o => fragOut decTriv [9] f = .ok o)
        (sortByOffset [⟨1, 0, 0, 0, 1, 1, 1, 0⟩]) outs ∧
      ([0] : List Nat) = outs.flatten ∧
      ([0] : List Nat).length = (outs.map List.length).sum :=
  (dump_file_written_length).1 decTriv [9] [⟨1, 0, 0, 0, 1, 1, 1, 0⟩] [0]
    (by decide)

/-- C2 counterexample: a NONE-compressed fragment with `csize = 7` and
`dsize = 5` contributes all 7 raw bytes — the written byte count is 7,
not the claimed `sum(dsize) = 5`; nothing truncates the output to
`dsize`. -/
theorem dump_file_no_truncation_counterexample :
    dump_file decTriv [1, 2, 3, 4, 5, 6, 7] [⟨1, 7, 0, 0, 7, 5, 0, 0⟩] =
      .ok [1, 2, 3, 4, 5, 6, 7] ∧
    ([(⟨1, 7, 0, 0, 7, 5, 0, 0⟩ : Jffs2Inode)].map Jffs2Inode.dsize).sum = 5 ∧
    (7 : Nat) ≠ 5 := by
  refine ⟨by decide, by decide, by decide⟩

/-- C8: the input handed to the LZMA decoder is exactly the reconstructed
13-byte header — properties byte `(pb*5 + lp)*9 + lc = 0` with
`pb = lp = lc = 0`, the 4-byte little-endian dictionary size `0x2000`
(bytes `00 20 00 00`), the 8-byte little-endian uncompressed size
`dsize` — followed by the fragment's `csize` raw compressed bytes. -/
theorem lzma_input_reconstruction :
    (∀ (dsize : Nat) (payload : List Nat), lzmaInput dsize payload =
      0 :: 0x00 :: 0x20 :: 0x00 :: 0x00 :: (le64bytes dsize ++ payload)) ∧
    (∀ (dec : Decoders) (buffer : List Nat) (inode : Jffs2Inode),
      inode.compr = 8 →
      fragOut dec buffer inode =
        match sliceE buffer inode.data (inode.data + inode.csize) with
        | .error e => .error e
        | .ok payload => dec.lzma (0 :: 0x00 :: 0x20 :: 0x00 :: 0x00 ::
            (le64bytes inode.dsize ++ payload))) ∧
    (∀ (buffer : List Nat) (inode : Jffs2Inode) (payload : List Nat),
      sliceE buffer inode.data (inode.data + inode.csize) = .ok payload →
      payload.length = inode.csize) := by
  refine ⟨?_, ?_, ?_⟩
  · intro dsize payload
    rfl
  · intro dec buffer inode hc
    rw [fragOut, if_neg (by rw [hc]; decide), if_neg (by rw [hc]; decide),
      if_neg (by rw [hc]; decide), if_neg (by rw [hc]; decide),
      if_neg (by rw [hc]; decide), if_pos (by rw [hc]; rfl)]
    cases hs : sliceE buffer inode.data (inode.data + inode.csize) with
    | error e => rfl
    | ok payload => rfl
  · intro buffer inode payload h
    have := sliceE_ok_length h
    omega

/-- Witness for `lzma_input_reconstruction`: a concrete LZMA fragment
(`csize = 2`, `dsize = 3`) hands the decoder the reconstructed header
followed by its two payload bytes. -/
theorem lzma_input_reconstruction_witness :
    fragOut decTriv [10, 20] ⟨1, 0, 0, 0, 2, 3, 8, 0⟩ =
      match sliceE [10, 20] 0 (0 + 2) with
      | .error e => .error e
      | .ok payload => decTriv.lzma (0 :: 0x00 :: 0x20 :: 0x00 :: 0x00 ::
          (le64bytes 3 ++ payload)) :=
  (lzma_input_reconstruction).2.1 decTriv [10, 20] ⟨1, 0, 0, 0, 2, 3, 8, 0⟩
    (by rfl)
